import Mathlib

/-!
Shallow embedding of the YPath engine of fy-walk.c (path lexer, shunting-yard
path parser, legacy walk-context parser, and walk evaluator), together with
proofs about the claims of the specification.  Definitions follow the C source
function by function; document-side entities and the few helpers living in
headers outside the embedded sources are modelled from the specification and
marked as such in their doc comments.
-/

/-! ### Character classes -/

/-- The double-quote character. -/
def dquoteC : Char := Char.ofNat 34

/-- The single-quote character. -/
def squoteC : Char := Char.ofNat 39

/-- The backtick character. -/
def bquoteC : Char := Char.ofNat 96

/-- The opening-brace character. -/
def lbraceC : Char := Char.ofNat 123

/-- The closing-brace character. -/
def rbraceC : Char := Char.ofNat 125

/-- The backslash character. -/
def bslashC : Char := Char.ofNat 92

/-- C `isdigit` / `fy_is_num`: ASCII decimal digit. -/
def fy_is_num (c : Char) : Bool := '0' ≤ c ∧ c ≤ '9'

/-- Modelled from the spec: `fy_is_first_alpha` (fy-ctype.h is not among the
embedded sources); per the grammar an alias or simple key starts with an
ASCII letter. -/
def fy_is_first_alpha (c : Char) : Bool :=
  ('a' ≤ c ∧ c ≤ 'z') ∨ ('A' ≤ c ∧ c ≤ 'Z')

/-- Modelled from the spec: `fy_is_alnum` continues an alias or simple key
with letters and digits (`aliasname := alpha alnum*`). -/
def fy_is_alnum (c : Char) : Bool := fy_is_first_alpha c ∨ fy_is_num c

/-- Modelled from the spec: `fy_is_path_flow_key_start`; a flow map key starts
with a quote, a brace or a bracket. -/
def fy_is_path_flow_key_start (c : Char) : Bool :=
  c = dquoteC ∨ c = squoteC ∨ c = lbraceC ∨ c = '['

/-- C `isspace`: space, tab, newline, vertical tab, form feed, carriage
return. -/
def c_isspace (c : Char) : Bool :=
  c = Char.ofNat 32 ∨ c = Char.ofNat 9 ∨ c = Char.ofNat 10 ∨
  c = Char.ofNat 11 ∨ c = Char.ofNat 12 ∨ c = Char.ofNat 13

/-! ### C 32-bit integer arithmetic -/

/-- A C `int` value reduced to its 32-bit unsigned representation. -/
def u32 (x : Int) : Nat := (x % (2 ^ 32 : Int)).toNat

/-- Read back a 32-bit unsigned representation as a signed C `int`. -/
def i32ofU (n : Nat) : Int := if n < 2 ^ 31 then (n : Int) else (n : Int) - 2 ^ 32

/-- C `int` bitwise OR on two's-complement 32-bit values. -/
def c_int_or (a b : Int) : Int := i32ofU (Nat.lor (u32 a) (u32 b))

/-- C `int` product reduced to 32 bits (the evaluation the hardware performs
when the C-level signed multiplication overflows). -/
def c_int_mul (a b : Int) : Int := i32ofU (u32 (a * b))

/-! ### Token types (fy_token_type, path-expression subset) -/

/-- The path-expression token types of the token-based parser
(`FYTT_PE_*` in the source). -/
inductive fy_token_type where
  | FYTT_PE_SLASH
  | FYTT_PE_ROOT
  | FYTT_PE_SIBLING
  | FYTT_PE_SCALAR_FILTER
  | FYTT_PE_COLLECTION_FILTER
  | FYTT_PE_SEQ_FILTER
  | FYTT_PE_MAP_FILTER
  | FYTT_PE_COMMA
  | FYTT_PE_PARENT
  | FYTT_PE_THIS
  | FYTT_PE_EVERY_CHILD
  | FYTT_PE_EVERY_CHILD_R
  | FYTT_PE_ALIAS
  | FYTT_PE_MAP_KEY
  | FYTT_PE_SEQ_INDEX
  | FYTT_PE_SEQ_SLICE
  deriving DecidableEq

open fy_token_type

/-- A path token: its type, the input position of its start mark, and the
type-specific payload (`seq_index`/`seq_slice` indices, key or alias text). -/
structure fy_token where
  type : fy_token_type
  pos : Nat
  start_index : Int := 0
  end_index : Int := 0
  text : String := ""
  deriving DecidableEq

/-! ### fy_path_fetch_seq_index_or_slice (lexing numbers) -/

/-- The inner digit-accumulation loop of `fy_path_fetch_seq_index_or_slice`:
`nval = (val * 10) | (c - '0')`, rejected when `nval < val` or `nval < 0`
(the C overflow check).  Returns the accumulated value, the number of digits
consumed and the remaining input, or `none` on the overflow error. -/
def seqDigitLoop : List Char → Int → Nat → Option (Int × Nat × List Char)
  | [], val, digits => some (val, digits, [])
  | c :: rest, val, digits =>
    if fy_is_num c then
      let nval := c_int_or (c_int_mul val 10) ((c.toNat : Int) - 48)
      if nval ≥ val ∧ nval ≥ 0 then seqDigitLoop rest nval (digits + 1)
      else none
    else some (val, digits, c :: rest)

/-- One signed part of an index-or-slice literal: an optional `-` sign and
the digit loop, with the `(val == 0 && digits == 1) || (val > 0)` check
(`"bad number"`). Returns the signed value, the remaining input, and the
number of characters consumed. -/
def seqPart (s : List Char) : Option (Int × List Char × Nat) :=
  match s with
  | '-' :: t =>
    match seqDigitLoop t 0 0 with
    | none => none
    | some (val, digits, rest) =>
      if (val = 0 ∧ digits = 1) ∨ val > 0 then
        some (-val, rest, 1 + digits)
      else none
  | _ =>
    match seqDigitLoop s 0 0 with
    | none => none
    | some (val, digits, rest) =>
      if (val = 0 ∧ digits = 1) ∨ val > 0 then
        some (val, rest, digits)
      else none

/-- Head test on a character list (single-character lookahead). -/
def headIs (p : Char → Bool) : List Char → Bool
  | c :: _ => p c
  | [] => false

/-- The slice-continuation lookahead of `fy_path_fetch_seq_index_or_slice`:
after a `:` the next characters must be a digit, or `-` followed by a
digit. -/
def sliceLook : List Char → Bool
  | [] => false
  | c :: r => fy_is_num c || (c = '-' && headIs fy_is_num r)

/-- Shallow embedding of `fy_path_fetch_seq_index_or_slice` (fy-walk.c):
parses a signed index, optionally continued by `:` and a second signed part
into a slice (the `j < 2` loop unrolled; a second `:` with a numeric
lookahead is consumed into the atom but parses no third part).  Returns the
queued token and the remaining input, or `none` on a scan error. -/
def fy_path_fetch_seq_index_or_slice (s : List Char) (pos : Nat) :
    Option (fy_token × List Char) :=
  match seqPart s with
  | none => none
  | some (v0, rest0, _) =>
    match rest0 with
    | c :: r1 =>
      if c = ':' ∧ sliceLook r1 then
        match seqPart r1 with
        | none => none
        | some (v1, rest1, _) =>
          match rest1 with
          | c2 :: r2 =>
            if c2 = ':' ∧ sliceLook r2 then
              some ({ type := FYTT_PE_SEQ_SLICE, pos := pos,
                      start_index := v0, end_index := v1 }, r2)
            else
              some ({ type := FYTT_PE_SEQ_SLICE, pos := pos,
                      start_index := v0, end_index := v1 }, rest1)
          | [] =>
            some ({ type := FYTT_PE_SEQ_SLICE, pos := pos,
                    start_index := v0, end_index := v1 }, [])
      else
        some ({ type := FYTT_PE_SEQ_INDEX, pos := pos, start_index := v0 }, rest0)
    | [] => some ({ type := FYTT_PE_SEQ_INDEX, pos := pos, start_index := v0 }, [])

/-! ### fy_path_fetch_tokens (the token classifier) -/

/-- One classification step of `fy_path_fetch_tokens` followed by the scan of
the rest of the input, written with explicit fuel (each step consumes at
least one character, so `length + 1` fuel always suffices).  The flow-YAML
builder collaborator is a parameter `flowDoc`, returning the loaded document
(modelled as its text) and how many characters it consumed. -/
def fy_path_fetch_loop (flowDoc : List Char → Option (String × Nat)) :
    Nat → List Char → Nat → Option (List fy_token)
  | 0, _, _ => none
  | _ + 1, [], _ => some []
  | fuel + 1, c :: rest, pos =>
    if c = '/' then
      (fy_path_fetch_loop flowDoc fuel rest (pos + 1)).map
        (⟨FYTT_PE_SLASH, pos, 0, 0, ""⟩ :: ·)
    else if c = '^' then
      (fy_path_fetch_loop flowDoc fuel rest (pos + 1)).map
        (⟨FYTT_PE_ROOT, pos, 0, 0, ""⟩ :: ·)
    else if c = ':' then
      (fy_path_fetch_loop flowDoc fuel rest (pos + 1)).map
        (⟨FYTT_PE_SIBLING, pos, 0, 0, ""⟩ :: ·)
    else if c = '$' then
      (fy_path_fetch_loop flowDoc fuel rest (pos + 1)).map
        (⟨FYTT_PE_SCALAR_FILTER, pos, 0, 0, ""⟩ :: ·)
    else if c = '%' then
      (fy_path_fetch_loop flowDoc fuel rest (pos + 1)).map
        (⟨FYTT_PE_COLLECTION_FILTER, pos, 0, 0, ""⟩ :: ·)
    else if c = ',' then
      (fy_path_fetch_loop flowDoc fuel rest (pos + 1)).map
        (⟨FYTT_PE_COMMA, pos, 0, 0, ""⟩ :: ·)
    else if c = '.' then
      match rest with
      | '.' :: r2 =>
        (fy_path_fetch_loop flowDoc fuel r2 (pos + 2)).map
          (⟨FYTT_PE_PARENT, pos, 0, 0, ""⟩ :: ·)
      | _ =>
        (fy_path_fetch_loop flowDoc fuel rest (pos + 1)).map
          (⟨FYTT_PE_THIS, pos, 0, 0, ""⟩ :: ·)
    else if c = '*' then
      match rest with
      | '*' :: r2 =>
        (fy_path_fetch_loop flowDoc fuel r2 (pos + 2)).map
          (⟨FYTT_PE_EVERY_CHILD_R, pos, 0, 0, ""⟩ :: ·)
      | a :: r2 =>
        if fy_is_first_alpha a then
          let nm := r2.takeWhile fy_is_alnum
          let r3 := r2.dropWhile fy_is_alnum
          (fy_path_fetch_loop flowDoc fuel r3 (pos + 2 + nm.length)).map
            (⟨FYTT_PE_ALIAS, pos, 0, 0, String.mk (a :: nm)⟩ :: ·)
        else
          (fy_path_fetch_loop flowDoc fuel rest (pos + 1)).map
            (⟨FYTT_PE_EVERY_CHILD, pos, 0, 0, ""⟩ :: ·)
      | [] =>
        (fy_path_fetch_loop flowDoc fuel rest (pos + 1)).map
          (⟨FYTT_PE_EVERY_CHILD, pos, 0, 0, ""⟩ :: ·)
    else if c = '[' ∧ headIs (· = ']') rest then
      (fy_path_fetch_loop flowDoc fuel (rest.drop 1) (pos + 2)).map
        (⟨FYTT_PE_SEQ_FILTER, pos, 0, 0, ""⟩ :: ·)
    else if c = lbraceC ∧ headIs (· = rbraceC) rest then
      (fy_path_fetch_loop flowDoc fuel (rest.drop 1) (pos + 2)).map
        (⟨FYTT_PE_MAP_FILTER, pos, 0, 0, ""⟩ :: ·)
    else if fy_is_first_alpha c then
      let nm := rest.takeWhile fy_is_alnum
      let r2 := rest.dropWhile fy_is_alnum
      (fy_path_fetch_loop flowDoc fuel r2 (pos + 1 + nm.length)).map
        (⟨FYTT_PE_MAP_KEY, pos, 0, 0, String.mk (c :: nm)⟩ :: ·)
    else if fy_is_path_flow_key_start c then
      match flowDoc (c :: rest) with
      | none => none
      | some (doc, n) =>
        if 1 ≤ n ∧ n ≤ rest.length + 1 then
          (fy_path_fetch_loop flowDoc fuel ((c :: rest).drop n) (pos + n)).map
            (⟨FYTT_PE_MAP_KEY, pos, 0, 0, doc⟩ :: ·)
        else none
    else if fy_is_num c ∨ (c = '-' ∧ headIs fy_is_num rest) then
      match fy_path_fetch_seq_index_or_slice (c :: rest) pos with
      | none => none
      | some (tok, rest') =>
        (fy_path_fetch_loop flowDoc fuel rest'
            (pos + ((c :: rest).length - rest'.length))).map (tok :: ·)
    else none

/-- Scan a whole path expression into its token list
(the repeated `fy_path_fetch_tokens` calls driven by `fy_path_scan_peek`),
with enough fuel for the input. -/
def fy_path_scan_all (flowDoc : List Char → Option (String × Nat))
    (cs : List Char) : Option (List fy_token) :=
  fy_path_fetch_loop flowDoc (cs.length + 1) cs 0

/-! ### Path expressions (fy_path_expr) and the shunting-yard parser -/

/-- The path-expression node types (`enum fy_path_expr_type`). -/
inductive fy_path_expr_type where
  | fpet_none
  | fpet_root
  | fpet_this
  | fpet_parent
  | fpet_every_child
  | fpet_every_child_r
  | fpet_every_leaf
  | fpet_assert_collection
  | fpet_assert_scalar
  | fpet_assert_sequence
  | fpet_assert_mapping
  | fpet_simple_map_key
  | fpet_seq_index
  | fpet_map_key
  | fpet_seq_slice
  | fpet_alias
  | fpet_multi
  | fpet_chain
  deriving DecidableEq

open fy_path_expr_type

/-- A path-expression AST node (`struct fy_path_expr`): a type, the token it
was made from (possibly absent), and its ordered children. -/
inductive fy_path_expr where
  | mk (type : fy_path_expr_type) (fyt : Option fy_token)
       (children : List fy_path_expr)

mutual

/-- Decidable equality on path expressions (nested recursion, so the derive
handler cannot produce it). -/
def fy_path_expr.decEq : (a b : fy_path_expr) → Decidable (a = b)
  | .mk t1 f1 ch1, .mk t2 f2 ch2 =>
    if h1 : t1 = t2 then
      if h2 : f1 = f2 then
        match fy_path_expr.decEqList ch1 ch2 with
        | isTrue h3 => isTrue (by rw [h1, h2, h3])
        | isFalse h3 => isFalse (by intro h; cases h; exact h3 rfl)
      else isFalse (by intro h; cases h; exact h2 rfl)
    else isFalse (by intro h; cases h; exact h1 rfl)

/-- Decidable equality on lists of path expressions. -/
def fy_path_expr.decEqList : (a b : List fy_path_expr) → Decidable (a = b)
  | [], [] => isTrue rfl
  | [], _ :: _ => isFalse (by simp)
  | _ :: _, [] => isFalse (by simp)
  | x :: xs, y :: ys =>
    match fy_path_expr.decEq x y, fy_path_expr.decEqList xs ys with
    | isTrue h1, isTrue h2 => isTrue (by rw [h1, h2])
    | isFalse h1, _ => isFalse (by intro h; injection h; contradiction)
    | _, isFalse h2 => isFalse (by intro h; injection h; contradiction)

end

instance : DecidableEq fy_path_expr := fy_path_expr.decEq

/-- The node type of a path expression. -/
def fy_path_expr.type : fy_path_expr → fy_path_expr_type
  | .mk t _ _ => t

/-- The token of a path expression. -/
def fy_path_expr.fyt : fy_path_expr → Option fy_token
  | .mk _ f _ => f

/-- The children list of a path expression. -/
def fy_path_expr.children : fy_path_expr → List fy_path_expr
  | .mk _ _ ch => ch

/-- `fy_map_token_to_path_expr_type`: the operand/operator token to
expression-type mapping (operand types plus the filter suffixes; other token
types map to none and never reach expression construction). -/
def fy_map_token_to_path_expr_type : fy_token_type → fy_path_expr_type
  | FYTT_PE_ROOT => fpet_root
  | FYTT_PE_THIS => fpet_this
  | FYTT_PE_PARENT => fpet_parent
  | FYTT_PE_MAP_KEY => fpet_map_key
  | FYTT_PE_SEQ_INDEX => fpet_seq_index
  | FYTT_PE_SEQ_SLICE => fpet_seq_slice
  | FYTT_PE_EVERY_CHILD => fpet_every_child
  | FYTT_PE_EVERY_CHILD_R => fpet_every_child_r
  | FYTT_PE_ALIAS => fpet_alias
  | FYTT_PE_SCALAR_FILTER => fpet_assert_scalar
  | FYTT_PE_COLLECTION_FILTER => fpet_assert_collection
  | FYTT_PE_SEQ_FILTER => fpet_assert_sequence
  | FYTT_PE_MAP_FILTER => fpet_assert_mapping
  | _ => fpet_none

/-- `fy_token_type_is_operand`. -/
def fy_token_type_is_operand (t : fy_token_type) : Bool :=
  t = FYTT_PE_ROOT ∨ t = FYTT_PE_THIS ∨ t = FYTT_PE_PARENT ∨
  t = FYTT_PE_MAP_KEY ∨ t = FYTT_PE_SEQ_INDEX ∨ t = FYTT_PE_SEQ_SLICE ∨
  t = FYTT_PE_EVERY_CHILD ∨ t = FYTT_PE_EVERY_CHILD_R ∨ t = FYTT_PE_ALIAS

/-- `fy_token_type_is_operator`. -/
def fy_token_type_is_operator (t : fy_token_type) : Bool :=
  t = FYTT_PE_SLASH ∨ t = FYTT_PE_SCALAR_FILTER ∨
  t = FYTT_PE_COLLECTION_FILTER ∨ t = FYTT_PE_SEQ_FILTER ∨
  t = FYTT_PE_MAP_FILTER ∨ t = FYTT_PE_SIBLING ∨ t = FYTT_PE_COMMA

/-- `fy_token_type_operator_prec`: filters 5, slash 10, comma 15,
sibling 20, `-1` otherwise. -/
def fy_token_type_operator_prec (t : fy_token_type) : Int :=
  match t with
  | FYTT_PE_SLASH => 10
  | FYTT_PE_SCALAR_FILTER => 5
  | FYTT_PE_COLLECTION_FILTER => 5
  | FYTT_PE_SEQ_FILTER => 5
  | FYTT_PE_MAP_FILTER => 5
  | FYTT_PE_SIBLING => 20
  | FYTT_PE_COMMA => 15
  | _ => -1

/-- `fy_path_expr_start_mark`: for chains and multis the start mark of the
first child, otherwise the start mark of the node's token. -/
def fy_path_expr_start_mark : fy_path_expr → Option Nat
  | .mk ty fyt ch =>
    if ty = fpet_chain ∨ ty = fpet_multi then
      match ch with
      | [] => none
      | c :: _ => fy_path_expr_start_mark c
    else fyt.map fy_token.pos

/-- The slash-case chain construction of `evaluate`: wrap `exprl` into a
chain unless it already is one, then append `exprr` (or splice in its
children when `exprr` is itself a chain). -/
def slashCombine (exprl exprr : fy_path_expr) : fy_path_expr :=
  let chain :=
    if exprl.type ≠ fpet_chain then
      fy_path_expr.mk fpet_chain none [exprl]
    else exprl
  if exprr.type ≠ fpet_chain then
    fy_path_expr.mk fpet_chain chain.fyt (chain.children ++ [exprr])
  else
    fy_path_expr.mk fpet_chain chain.fyt (chain.children ++ exprr.children)

/-- One step of `evaluate` (fy-walk.c): the operator token has already been
popped from the operator stack (`pop_operator`); the function transforms the
operand stack (head = top of stack) and returns the new operand stack, or
`none` on a parse error.  Note the filter case: when the popped operand is
not already a chain, the code builds a fresh chain holding only the filter
leaf (the operand is not re-attached). -/
def evaluateStep (fyt_top : fy_token) (operands : List fy_path_expr) :
    Option (List fy_path_expr) :=
  match fyt_top.type with
  | FYTT_PE_SLASH =>
    match operands with
    | [] =>
      -- slash with an empty operand stack: slash at the beginning is root
      some [fy_path_expr.mk fpet_root (some fyt_top) []]
    | exprr :: [] =>
      -- rhs present, lhs missing: compare start marks
      match fy_path_expr_start_mark exprr with
      | none => none
      | some m2 =>
        if fyt_top.pos < m2 then
          -- the slash is to the left: it is a root
          some [slashCombine (fy_path_expr.mk fpet_root (some fyt_top) []) exprr]
        else
          -- the slash is to the right: it is a collection marker
          some [slashCombine exprr
                  (fy_path_expr.mk fpet_assert_collection (some fyt_top) [])]
    | exprr :: exprl :: rest =>
      some (slashCombine exprl exprr :: rest)
  | FYTT_PE_SIBLING =>
    match operands with
    | [] => none
    | exprr :: rest =>
      match exprr.fyt with
      | none => none
      | some ft =>
        if ft.type = FYTT_PE_MAP_KEY then
          some (fy_path_expr.mk fpet_chain (some fyt_top)
                  [fy_path_expr.mk fpet_parent none [], exprr] :: rest)
        else none
  | FYTT_PE_COMMA =>
    match operands with
    | exprr :: exprl :: rest =>
      let multi :=
        if exprl.type ≠ fpet_multi then
          fy_path_expr.mk fpet_multi (some fyt_top) [exprl]
        else exprl
      if exprr.type ≠ fpet_multi then
        some (fy_path_expr.mk fpet_multi multi.fyt
                (multi.children ++ [exprr]) :: rest)
      else
        some (fy_path_expr.mk fpet_multi multi.fyt
                (multi.children ++ exprr.children) :: rest)
    | _ => none
  | FYTT_PE_SCALAR_FILTER | FYTT_PE_COLLECTION_FILTER
  | FYTT_PE_SEQ_FILTER | FYTT_PE_MAP_FILTER =>
    match operands with
    | [] => none
    | exprl :: rest =>
      let chain :=
        if exprl.type ≠ fpet_chain then
          fy_path_expr.mk fpet_chain none []
        else exprl
      let exprr := fy_path_expr.mk
        (fy_map_token_to_path_expr_type fyt_top.type) (some fyt_top) []
      some (fy_path_expr.mk fpet_chain chain.fyt
              (chain.children ++ [exprr]) :: rest)
  | _ => none

/-- The operator-arrival loop of `fy_path_parse_expression`: while the
operator stack is non-empty and the priority of the new operator is not
larger than the top's, evaluate the top; then push the new operator.
Operator stacks are lists with the head as top. -/
def shuntOperator (fyt : fy_token) :
    List fy_token → List fy_path_expr →
    Option (List fy_token × List fy_path_expr)
  | [], operands => some ([fyt], operands)
  | fyt_top :: rest, operands =>
    if fy_token_type_operator_prec fyt.type >
        fy_token_type_operator_prec fyt_top.type then
      some (fyt :: fyt_top :: rest, operands)
    else
      match evaluateStep fyt_top operands with
      | none => none
      | some operands' => shuntOperator fyt rest operands'

/-- The end-of-stream drain of `fy_path_parse_expression`: evaluate until
the operator stack is empty. -/
def drainOperators : List fy_token → List fy_path_expr →
    Option (List fy_path_expr)
  | [], operands => some operands
  | fyt_top :: rest, operands =>
    match evaluateStep fyt_top operands with
    | none => none
    | some operands' => drainOperators rest operands'

/-- The main token loop of `fy_path_parse_expression` over the scanned
tokens (stream start/end implicit in the list), carrying the operator and
operand stacks; at the end the operator stack is drained and exactly one
operand must remain. -/
def fy_path_parse_loop :
    List fy_token → List fy_token → List fy_path_expr →
    Option fy_path_expr
  | [], operators, operands =>
    match drainOperators operators operands with
    | none => none
    | some operands' =>
      match operands' with
      | [expr] => some expr
      | _ => none
  | fyt :: ts, operators, operands =>
    if fy_token_type_is_operand fyt.type then
      fy_path_parse_loop ts operators
        (fy_path_expr.mk (fy_map_token_to_path_expr_type fyt.type)
          (some fyt) [] :: operands)
    else
      match shuntOperator fyt operators operands with
      | none => none
      | some (operators', operands') =>
        fy_path_parse_loop ts operators' operands'

/-- `fy_path_parse_expression` on an already scanned token list. -/
def fy_path_parse_expression (ts : List fy_token) : Option fy_path_expr :=
  fy_path_parse_loop ts [] []

/-- The full token-based parse pipeline: scan the characters into tokens and
run the shunting-yard parser. -/
def fy_path_parse_full (flowDoc : List Char → Option (String × Nat))
    (cs : List Char) : Option fy_path_expr :=
  match fy_path_scan_all flowDoc cs with
  | none => none
  | some ts => fy_path_parse_expression ts

/-- A flow-document builder stub for concrete runs that contain no flow
keys. -/
def noFlowDoc : List Char → Option (String × Nat) := fun _ => none

/-! ### The legacy walk-context parser (fy_walk_create) -/

/-- The walk component types (`enum fy_walk_component_type`). -/
inductive fy_walk_component_type where
  | fwct_none
  | fwct_start_root
  | fwct_start_alias
  | fwct_root
  | fwct_this
  | fwct_parent
  | fwct_every_child
  | fwct_every_child_r
  | fwct_every_leaf
  | fwct_assert_collection
  | fwct_assert_scalar
  | fwct_assert_sequence
  | fwct_assert_mapping
  | fwct_simple_map_key
  | fwct_seq_index
  | fwct_map_key
  | fwct_seq_slice
  | fwct_multi
  | fwct_chain
  deriving DecidableEq

open fy_walk_component_type

/-- A walk component (`struct fy_walk_component`): its type, the component
text it covers (`comp`/`complen`; also holding the alias or map-key payload
text), the `seq_index`/`seq_slice` numeric payload, and its children. -/
inductive fy_walk_component where
  | mk (type : fy_walk_component_type) (comp : String)
       (idx0 idx1 : Int) (children : List fy_walk_component)

/-- The type of a walk component. -/
def fy_walk_component.type : fy_walk_component → fy_walk_component_type
  | .mk t _ _ _ _ => t

/-- The children of a walk component. -/
def fy_walk_component.children : fy_walk_component → List fy_walk_component
  | .mk _ _ _ _ ch => ch

/-- `fy_walk_component_type_is_terminating`. -/
def fy_walk_component_type_is_terminating (t : fy_walk_component_type) : Bool :=
  t = fwct_every_child_r ∨ t = fwct_every_leaf ∨
  t = fwct_assert_collection ∨ t = fwct_assert_scalar ∨
  t = fwct_assert_sequence ∨ t = fwct_assert_mapping

/-- `fy_walk_component_type_is_multi`. -/
def fy_walk_component_type_is_multi (t : fy_walk_component_type) : Bool :=
  t = fwct_every_child ∨ t = fwct_every_child_r ∨ t = fwct_every_leaf ∨
  t = fwct_seq_slice ∨ t = fwct_multi ∨ t = fwct_chain

/-- `walk_container_is_startc`: quote, brace or bracket. -/
def walk_container_is_startc (c : Char) : Bool :=
  c = dquoteC ∨ c = squoteC ∨ c = lbraceC ∨ c = '['

/-- `walk_container_endc`. -/
def walk_container_endc (c : Char) : Char :=
  if c = dquoteC ∨ c = squoteC then c
  else if c = lbraceC then rbraceC
  else if c = '[' then ']'
  else c

/-- Modelled from the spec: `fy_utf8_parse_escape` (fy-utf8.c is not among
the embedded sources).  In double-quote mode an escape is a backslash
followed by at least one further character; in single-quote mode it is a
doubled quote.  Returns the characters consumed or `none` for a bad
escape. -/
def fy_utf8_parse_escape (dq : Bool) : List Char → Option Nat
  | [] => none
  | [_] => none
  | _ :: b :: _ => if dq then some 2 else if b = squoteC then some 2 else none

/-- The quoted-container scan loop of `walk_container_get_extent`: find the
next escape or closing character, parse escapes, and stop after the closing
quote.  Returns the input remaining after the closing quote.  Fuel bounds
the loop (`length + 1` always suffices). -/
def walkQuoteScan (endc escc : Char) (dq : Bool) :
    Nat → List Char → Option (List Char)
  | 0, _ => none
  | fuel + 1, s =>
    let at_ := s.dropWhile (fun c => ¬(c = escc ∨ c = endc))
    match at_ with
    | [] => none  -- end of string without finding anything
    | t :: trest =>
      if t = endc ∧ endc ≠ escc then
        some trest  -- regular end of container
      else
        match fy_utf8_parse_escape dq (t :: trest) with
        | some k => walkQuoteScan endc escc dq fuel ((t :: trest).drop k)
        | none =>
          if endc ≠ escc then none
          else some trest  -- single-quote mode: a lone quote closes
  termination_by fuel => fuel

/-- The nesting scan of `walk_container_get_extent` for braces and
brackets; `nest` starts at 1 and the scan stops after the matching
close. -/
def walkNestScan (startc endc : Char) : List Char → Nat → Option (List Char)
  | [], _ => none
  | c :: rest, nest =>
    if c = startc then walkNestScan startc endc rest (nest + 1)
    else if c = endc then
      if nest = 1 then some rest else walkNestScan startc endc rest (nest - 1)
    else walkNestScan startc endc rest nest

/-- `walk_container_get_extent`: returns the characters consumed (0 when the
input does not start a container, i.e. no advance), or `none` on a
malformed container. -/
def walk_container_get_extent (s : List Char) : Option Nat :=
  match s with
  | [] => some 0
  | c :: rest =>
    if ¬walk_container_is_startc c then some 0
    else
      let endc := walk_container_endc c
      if c = dquoteC ∨ c = squoteC then
        let escc := if c = squoteC then squoteC else bslashC
        match walkQuoteScan endc escc (c = dquoteC) (rest.length + 1) rest with
        | none => none
        | some rem => some (s.length - rem.length)
      else
        match walkNestScan c endc rest 1 with
        | none => none
        | some rem => some (s.length - rem.length)

/-- `walk_numeric_slice_get_extent`: `digit+ ':' digit*`; anything else is
no advance (never an error). -/
def walk_numeric_slice_get_extent (s : List Char) : Option Nat :=
  let d1 := (s.takeWhile fy_is_num).length
  if d1 = 0 then some 0
  else
    match s.drop d1 with
    | c :: r2 =>
      if c ≠ ':' then some 0
      else if r2 = [] then some (d1 + 1)
      else
        let d2 := (r2.takeWhile fy_is_num).length
        if d2 = 0 then some 0 else some (d1 + 1 + d2)
    | [] => some 0

/-- `walk_numeric_get_extent`: optional `-` sign and `digit+`; otherwise no
advance. -/
def walk_numeric_get_extent (s : List Char) : Option Nat :=
  match s with
  | [] => some 0
  | c :: rest =>
    if c = '-' then
      if rest = [] then some 0
      else
        let d := (rest.takeWhile fy_is_num).length
        if d = 0 then some 0 else some (1 + d)
    else
      let d := (s.takeWhile fy_is_num).length
      if d = 0 then some 0 else some d

/-- The reserved first characters of a simple key
(`",[]{}#&*!|<>'\"%@`?:/$-0123456789"`). -/
def walk_simple_key_reserved_first (c : Char) : Bool :=
  c = ',' ∨ c = '[' ∨ c = ']' ∨ c = lbraceC ∨ c = rbraceC ∨ c = '#' ∨
  c = '&' ∨ c = '*' ∨ c = '!' ∨ c = '|' ∨ c = '<' ∨ c = '>' ∨
  c = squoteC ∨ c = dquoteC ∨ c = '%' ∨ c = '@' ∨ c = bquoteC ∨
  c = '?' ∨ c = ':' ∨ c = '/' ∨ c = '$' ∨ c = '-' ∨ fy_is_num c

/-- The reserved terminator characters of a simple key
(`",[]{}#&*!|<>'\"%@`?:/$"`). -/
def walk_simple_key_reserved_term (c : Char) : Bool :=
  c = ',' ∨ c = '[' ∨ c = ']' ∨ c = lbraceC ∨ c = rbraceC ∨ c = '#' ∨
  c = '&' ∨ c = '*' ∨ c = '!' ∨ c = '|' ∨ c = '<' ∨ c = '>' ∨
  c = squoteC ∨ c = dquoteC ∨ c = '%' ∨ c = '@' ∨ c = bquoteC ∨
  c = '?' ∨ c = ':' ∨ c = '/' ∨ c = '$'

/-- `walk_simple_key_get_extent`. -/
def walk_simple_key_get_extent (s : List Char) : Option Nat :=
  match s with
  | [] => some 0
  | c :: rest =>
    if walk_simple_key_reserved_first c then some 0
    else some (1 + (rest.takeWhile (fun x => ¬walk_simple_key_reserved_term x)).length)

/-- Modelled from the spec: `fy_is_alpha` continues an alias name
(`aliasname := alpha alnum*`). -/
def fy_is_alpha (c : Char) : Bool := fy_is_alnum c

/-- `walk_alias_get_extent`: `*` followed by a first-alpha character and a
run of alpha characters. -/
def walk_alias_get_extent (s : List Char) : Option Nat :=
  match s with
  | a :: b :: _ =>
    if a = '*' ∧ fy_is_first_alpha b then
      some (1 + ((s.drop 1).takeWhile fy_is_alpha).length)
    else some 0
  | _ => some 0

/-- `walk_parent_get_extent`: `..` optionally terminated by `,` or `/`. -/
def walk_parent_get_extent (s : List Char) : Option Nat :=
  match s with
  | '.' :: '.' :: rest =>
    match rest with
    | [] => some 2
    | c :: _ => if c = ',' ∨ c = '/' then some 2 else none
  | _ => some 0

/-- `walk_this_get_extent`: `.` optionally terminated by `,` or `/`. -/
def walk_this_get_extent (s : List Char) : Option Nat :=
  match s with
  | '.' :: rest =>
    match rest with
    | [] => some 1
    | c :: _ => if c = ',' ∨ c = '/' then some 1 else none
  | _ => some 0

/-- `walk_root_get_extent`: `^` optionally terminated by `,` or `/`. -/
def walk_root_get_extent (s : List Char) : Option Nat :=
  match s with
  | '^' :: rest =>
    match rest with
    | [] => some 1
    | c :: _ => if c = ',' ∨ c = '/' then some 1 else none
  | _ => some 0

/-- `walk_every_child_r_get_extent`: `**` with no terminator check. -/
def walk_every_child_r_get_extent (s : List Char) : Option Nat :=
  match s with
  | '*' :: '*' :: _ => some 2
  | _ => some 0

/-- `walk_every_child_get_extent`: `*` optionally terminated by `,` or
`/`. -/
def walk_every_child_get_extent (s : List Char) : Option Nat :=
  match s with
  | '*' :: rest =>
    match rest with
    | [] => some 1
    | c :: _ => if c = ',' ∨ c = '/' then some 1 else none
  | _ => some 0

/-- A split descriptor (`struct split_desc`): component type and the
sibling/scalar mark permissions. -/
structure split_desc where
  ctype : fy_walk_component_type
  sibling_mark : Bool := false
  scalar_mark : Bool := false
  deriving DecidableEq

/-- The descriptor table `split_descs`, in order of precedence. -/
def split_descs : List (split_desc × (List Char → Option Nat)) :=
  [ (⟨fwct_root, false, false⟩, walk_root_get_extent),
    (⟨fwct_parent, false, false⟩, walk_parent_get_extent),
    (⟨fwct_this, false, false⟩, walk_this_get_extent),
    (⟨fwct_seq_slice, true, true⟩, walk_numeric_slice_get_extent),
    (⟨fwct_seq_index, true, true⟩, walk_numeric_get_extent),
    (⟨fwct_map_key, true, true⟩, walk_container_get_extent),
    (⟨fwct_simple_map_key, true, true⟩, walk_simple_key_get_extent),
    (⟨fwct_start_alias, false, true⟩, walk_alias_get_extent),
    (⟨fwct_every_child_r, false, true⟩, walk_every_child_r_get_extent),
    (⟨fwct_every_child, false, true⟩, walk_every_child_get_extent) ]

/-- The descriptor-iteration loop of `walk_get_split_desc`. -/
def walkGetSplitDescGo (s : List Char) :
    List (split_desc × (List Char → Option Nat)) → Option (split_desc × Nat)
  | [] => none
  | (sd, f) :: rest =>
    match f s with
    | none => none
    | some 0 => walkGetSplitDescGo s rest
    | some (n + 1) => some (sd, n + 1)

/-- `walk_get_split_desc`: try every descriptor in order; a hard error from
any extent function aborts, the first advancing descriptor wins, and no
match at all is `none` as well (the caller treats both as errors). -/
def walk_get_split_desc (s : List Char) : Option (split_desc × Nat) :=
  walkGetSplitDescGo s split_descs

/-! ### strtol and fy_walk_add_component payload parsing -/

/-- Decimal digit accumulation of `strtol` (exact mathematical value; the
clamp is applied afterwards). -/
def strtolDigits : List Char → Int → Int × List Char
  | [], acc => (acc, [])
  | c :: r, acc =>
    if fy_is_num c then strtolDigits r (acc * 10 + ((c.toNat : Int) - 48))
    else (acc, c :: r)

/-- `strtol` clamps out-of-range values to `LONG_MIN`/`LONG_MAX`. -/
def clampLong (x : Int) : Int :=
  max (-(2 ^ 63)) (min (2 ^ 63 - 1) x)

/-- C `strtol(nptr, &end, 10)`: optional leading spaces and sign, then
digits; when no digits are consumed the end pointer is the original input
and the value 0. -/
def strtol10 (s : List Char) : Int × List Char :=
  let s1 := s.dropWhile c_isspace
  match s1 with
  | '-' :: t =>
    if headIs fy_is_num t then
      let p := strtolDigits t 0
      (clampLong (-p.1), p.2)
    else (0, s)
  | '+' :: t =>
    if headIs fy_is_num t then
      let p := strtolDigits t 0
      (clampLong p.1, p.2)
    else (0, s)
  | _ =>
    if headIs fy_is_num s1 then
      let p := strtolDigits s1 0
      (clampLong p.1, p.2)
    else (0, s)

/-- A C `(int)` cast of a wider integer (two's-complement truncation). -/
def c_int_cast (x : Int) : Int := i32ofU (u32 x)

/-- The payload-parsing part of `fy_walk_add_component` for one component of
a given type over its component text: the `strtol`-based `seq_index` and
`seq_slice` parsing with its error checks, the alias payload, and the
map-key document (the external document builder is assumed to succeed; its
payload is modelled as the raw text).  Returns `none` exactly on the error
paths of the C switch. -/
def fy_walk_mk_component (t : fy_walk_component_type) (text : List Char)
    (children : List fy_walk_component) : Option fy_walk_component :=
  match t with
  | fwct_start_alias =>
    some (.mk t (String.mk (text.drop 1)) 0 0 children)
  | fwct_map_key =>
    some (.mk t (String.mk text) 0 0 children)
  | fwct_seq_index =>
    let p := strtol10 text
    if p.2 ≠ [] then none  -- garbage after numeric
    else some (.mk t (String.mk text) (c_int_cast p.1) 0 children)
  | fwct_seq_slice =>
    let p := strtol10 text
    match p.2 with
    | ':' :: r2 =>
      let start_index := c_int_cast p.1
      if start_index < 0 then none  -- bad sequence slice start index
      else if r2 = [] then
        some (.mk t (String.mk text) start_index (-1) children)
      else
        let q := strtol10 r2
        if q.2 ≠ [] then none  -- garbage after second slice index
        else
          let end_index := c_int_cast q.1
          if end_index < 0 ∨ start_index ≥ end_index then none
          else some (.mk t (String.mk text) start_index end_index children)
    | _ => none  -- garbage after first slice index
  | _ => some (.mk t (String.mk text) 0 0 children)

/-! ### The fy_walk_create scanning loop -/

/-- One parsed split of a component group: the matched descriptor, the
component text, and the sibling/scalar marks. -/
structure walk_split where
  sd : split_desc
  text : List Char
  sibling_mark : Bool
  scalar_mark : Bool

/-- The inner split loop of `fy_walk_create`: parse `:`-marked,
`$`-suffixed components separated by commas until end of input or a `/`.
Returns the collected splits and the remaining input.  Fuel bounds the loop
(`length + 1` always suffices). -/
def walkSplitLoop :
    Nat → List Char → List walk_split → Option (List walk_split × List Char)
  | 0, _, _ => none
  | fuel + 1, s, splits =>
    let sib := headIs (· = ':') s
    let s1 := if sib then s.drop 1 else s
    match walk_get_split_desc s1 with
    | none => none  -- could not split to advance at all
    | some (sd, n) =>
      if sib ∧ ¬sd.sibling_mark then none
      else
        let text := s1.take n
        let s2 := s1.drop n
        let scal := headIs (· = '$') s2
        let s3 := if scal then s2.drop 1 else s2
        if scal ∧ ¬sd.scalar_mark then none
        else
          let splits' := splits ++ [⟨sd, text, sib, scal⟩]
          match s3 with
          | [] => some (splits', [])
          | c :: s4 =>
            if c = '/' then some (splits', s4)
            else if c = ',' then walkSplitLoop fuel s4 splits'
            else none  -- no end, comma, or slash

/-- Build the components of one split (`fy_walk_create`'s per-split body):
a sibling or scalar mark wraps the component into a chain, a sibling mark
prepends a parent component, and a scalar mark appends an assert-scalar
component. -/
def walkBuildSplit (sp : walk_split) : Option (List fy_walk_component) :=
  match fy_walk_mk_component sp.sd.ctype sp.text [] with
  | none => none
  | some main =>
    if sp.sibling_mark ∨ sp.scalar_mark then
      let inner :=
        (if sp.sibling_mark then [fy_walk_component.mk fwct_parent (String.mk []) 0 0 []] else [])
        ++ [main]
        ++ (if sp.scalar_mark then [fy_walk_component.mk fwct_assert_scalar (String.mk []) 0 0 []] else [])
      some [fy_walk_component.mk fwct_chain (String.mk []) 0 0 inner]
    else some [main]

/-- Build the components of every split of a group, concatenated. -/
def walkBuildSplits : List walk_split → Option (List fy_walk_component)
  | [] => some []
  | sp :: rest =>
    match walkBuildSplit sp with
    | none => none
    | some cs =>
      match walkBuildSplits rest with
      | none => none
      | some rest' => some (cs ++ rest')

/-- Process one split group: a group of more than one split is wrapped in a
multi component; the group's components are appended to the top-level
component list. -/
def walkProcessGroup (splits : List walk_split)
    (comps : List fy_walk_component) : Option (List fy_walk_component) :=
  if splits.isEmpty then none  -- no splits found
  else
    match walkBuildSplits splits with
    | none => none
    | some items =>
      if splits.length > 1 then
        some (comps ++ [fy_walk_component.mk fwct_multi (String.mk []) 0 0 items])
      else some (comps ++ items)

/-- The per-iteration body of `fy_walk_create`'s outer scanning loop after
the start-root special case: the terminating-`/` case, the split loop, group
processing, and the terminating-component check.  The body itself does not
loop: it reports an error (`none`), a final component list (`.inl`) for the
`goto done` paths, or the state for the next iteration (`.inr`). -/
def walkCreateBodyStep (s : List Char) (comps : List fy_walk_component) :
    Option (List fy_walk_component ⊕ (List Char × List fy_walk_component)) :=
  match s with
  | [] =>
    -- done: no components discovered is an error
    if comps.isEmpty then none else some (.inl comps)
  | c :: rest =>
    if c = '/' ∧ rest = [] then
      -- terminating /
      match fy_walk_mk_component fwct_assert_collection ['/'] [] with
      | none => none
      | some fwc => some (.inl (comps ++ [fwc]))  -- goto done (non-empty)
    else
      match walkSplitLoop (s.length + 1) s [] with
      | none => none
      | some (splits, s2) =>
        match walkProcessGroup splits comps with
        | none => none
        | some comps2 =>
          -- terminating component with more remaining is illegal
          match comps2.getLast? with
          | some last =>
            if fy_walk_component_type_is_terminating last.type ∧ s2 ≠ [] then
              none
            else some (.inr (s2, comps2))
          | none => some (.inr (s2, comps2))

/-- The outer scanning loop of `fy_walk_create` over the trimmed path.  Fuel
bounds the loop (`length + 1` always suffices: every iteration consumes at
least one character). -/
def walkCreateLoop :
    Nat → List Char → List fy_walk_component → Option (List fy_walk_component)
  | 0, _, _ => none
  | fuel + 1, s, comps =>
    match s with
    | [] =>
      -- done: no components discovered is an error
      if comps.isEmpty then none else some comps
    | c :: rest =>
      if c = '/' ∧ comps.isEmpty then
        -- regular path follows and no previous anchor: start from root
        match fy_walk_mk_component fwct_start_root ['/'] [] with
        | none => none
        | some fwc =>
          match rest with
          | [] => some [fwc]  -- goto done (components non-empty)
          | _ =>
            match walkCreateBodyStep rest [fwc] with
            | none => none
            | some (.inl res) => some res
            | some (.inr (s2, comps2)) => walkCreateLoop fuel s2 comps2
      else
        match walkCreateBodyStep s comps with
        | none => none
        | some (.inl res) => some res
        | some (.inr (s2, comps2)) => walkCreateLoop fuel s2 comps2

/-- Strip leading and trailing spaces (the trim step of
`fy_walk_create`). -/
def trimSpaces (s : List Char) : List Char :=
  ((s.dropWhile c_isspace).reverse.dropWhile c_isspace).reverse

/-- `fy_walk_create`: reject empty input, trim spaces, reject all-space
input, then scan the path into its top-level component list. -/
def fy_walk_create (path : List Char) : Option (List fy_walk_component) :=
  if path = [] then none
  else
    let s := trimSpaces path
    if s = [] then none
    else walkCreateLoop (s.length + 1) s []

/-! ### Document nodes (external collaborator, modelled from the spec) -/

/-- Modelled from the spec: a document node (`struct fy_node`, fy-doc.h is
not among the embedded sources) is polymorphic over scalar, sequence
(ordered nodes) and mapping (ordered key/value pairs); the `id` field models
the node's identity (its address in the C heap), which is unique within a
document. -/
inductive fy_node where
  | scalar (id : Nat)
  | sequence (id : Nat) (items : List fy_node)
  | mapping (id : Nat) (pairs : List (fy_node × fy_node))

/-- The identity of a node (models pointer comparison). -/
def fy_node.nodeId : fy_node → Nat
  | .scalar i => i
  | .sequence i _ => i
  | .mapping i _ => i

/-- Node identity comparison (C pointer equality `fwr->fyn == fyn`). -/
def fy_node_same (a b : fy_node) : Bool := a.nodeId = b.nodeId

/-- `fy_node_is_scalar`. -/
def fy_node_is_scalar : fy_node → Bool
  | .scalar _ => true
  | _ => false

/-- `fy_node_is_sequence`. -/
def fy_node_is_sequence : fy_node → Bool
  | .sequence _ _ => true
  | _ => false

/-- `fy_node_is_mapping`. -/
def fy_node_is_mapping : fy_node → Bool
  | .mapping _ _ => true
  | _ => false

/-- The item list of a sequence node. -/
def fy_node_sequence_items : fy_node → List fy_node
  | .sequence _ items => items
  | _ => []

/-- The pair list of a mapping node. -/
def fy_node_mapping_pairs : fy_node → List (fy_node × fy_node)
  | .mapping _ ps => ps
  | _ => []

/-- `fy_node_sequence_item_count`. -/
def fy_node_sequence_item_count (n : fy_node) : Nat :=
  (fy_node_sequence_items n).length

/-- Modelled from the spec: `fy_node_sequence_get_by_index` resolves a
negative index as `i + len` when that lands in range, and returns nothing
out of range (spec §4.5). -/
def fy_node_sequence_get_by_index (n : fy_node) (i : Int) : Option fy_node :=
  let items := fy_node_sequence_items n
  let j := if i < 0 then i + items.length else i
  if 0 ≤ j ∧ j < (items.length : Int) then items.get? j.toNat else none

/-- Modelled from the spec: the document-side collaborator interface
consumed by the walker (node parent, document root, anchor lookup and
mapping lookups; §3 and §6 of the spec). -/
structure fy_doc_ops where
  docRoot : fy_node → fy_node
  parentOf : fy_node → Option fy_node
  lookupAnchor : fy_node → String → Option fy_node
  lookupSimpleKey : fy_node → String → Option fy_node
  lookupDocKey : fy_node → String → Option fy_node

/-! ### Size measures for the walk recursion -/

mutual

/-- A size measure on nodes (collections weigh two plus their walked
children: sequence items and mapping values). -/
def fy_node_size : fy_node → Nat
  | .scalar _ => 1
  | .sequence _ items => 2 + fy_node_list_size items
  | .mapping _ ps => 2 + fy_node_pairs_size ps

/-- Combined size of a node list (one per element plus element sizes). -/
def fy_node_list_size : List fy_node → Nat
  | [] => 0
  | n :: r => 1 + fy_node_size n + fy_node_list_size r

/-- Combined size of the values of a pair list (only values are walked). -/
def fy_node_pairs_size : List (fy_node × fy_node) → Nat
  | [] => 0
  | (_, v) :: r => 1 + fy_node_size v + fy_node_pairs_size r

end

mutual

/-- A size measure on walk components. -/
def fy_walk_comp_size : fy_walk_component → Nat
  | .mk _ _ _ _ ch => 1 + fy_walk_comps_size ch

/-- Combined size of a component list. -/
def fy_walk_comps_size : List fy_walk_component → Nat
  | [] => 0
  | c :: r => 1 + fy_walk_comp_size c + fy_walk_comps_size r

end

theorem fy_node_list_size_map_snd (ps : List (fy_node × fy_node)) :
    fy_node_list_size (ps.map (·.2)) = fy_node_pairs_size ps := by
  induction ps with
  | nil => rfl
  | cons p r ih => cases p; simp [fy_node_list_size, fy_node_pairs_size, ih]

/-! ### The walk result list and the evaluator -/

/-- The evaluator state: the result list under construction and the number
of allocation attempts made so far (the allocation oracle `ok` below decides
which attempts succeed, modelling heap exhaustion). -/
structure fy_walk_state where
  results : List fy_node
  allocCnt : Nat

/-- `fy_walk_result_add`: do not add a node already present (compared by
node identity — success, list unchanged, no allocation); otherwise allocate
a result (the attempt may fail, error `-1`) and append at the tail. -/
def fy_walk_result_add (ok : Nat → Bool) (st : fy_walk_state) (fyn : fy_node) :
    fy_walk_state × Int :=
  if st.results.any (fy_node_same fyn) then (st, 0)
  else if ok st.allocCnt then
    ({ results := st.results ++ [fyn], allocCnt := st.allocCnt + 1 }, 0)
  else ({ st with allocCnt := st.allocCnt + 1 }, -1)

mutual

/-- `fy_walk_result_add_recursive`: a scalar is added directly; a collection
is added itself unless `leaf_only`, then its children (sequence items,
mapping values) are added recursively; errors abort. -/
def fy_walk_result_add_recursive (ok : Nat → Bool) (st : fy_walk_state)
    (fyn : fy_node) (leaf_only : Bool) : fy_walk_state × Int :=
  match fyn with
  | .scalar _ => fy_walk_result_add ok st fyn
  | .sequence _ items =>
    if leaf_only then walkAddRecList ok st items leaf_only
    else
      if (fy_walk_result_add ok st fyn).2 = 0 then
        walkAddRecList ok (fy_walk_result_add ok st fyn).1 items leaf_only
      else fy_walk_result_add ok st fyn
  | .mapping _ ps =>
    if leaf_only then walkAddRecPairs ok st ps leaf_only
    else
      if (fy_walk_result_add ok st fyn).2 = 0 then
        walkAddRecPairs ok (fy_walk_result_add ok st fyn).1 ps leaf_only
      else fy_walk_result_add ok st fyn
termination_by (fy_node_size fyn, 1)
decreasing_by
  all_goals apply Prod.Lex.left
  all_goals simp only [fy_node_size]
  all_goals omega

/-- The sequence-iteration loop of `fy_walk_result_add_recursive`. -/
def walkAddRecList (ok : Nat → Bool) (st : fy_walk_state)
    (items : List fy_node) (leaf_only : Bool) : fy_walk_state × Int :=
  match items with
  | [] => (st, 0)
  | n :: rest =>
    if (fy_walk_result_add_recursive ok st n leaf_only).2 = 0 then
      walkAddRecList ok (fy_walk_result_add_recursive ok st n leaf_only).1
        rest leaf_only
    else fy_walk_result_add_recursive ok st n leaf_only
termination_by (1 + fy_node_list_size items, 0)
decreasing_by
  all_goals apply Prod.Lex.left
  all_goals simp only [fy_node_list_size]
  all_goals omega

/-- The mapping-iteration loop of `fy_walk_result_add_recursive` (values
only). -/
def walkAddRecPairs (ok : Nat → Bool) (st : fy_walk_state)
    (ps : List (fy_node × fy_node)) (leaf_only : Bool) : fy_walk_state × Int :=
  match ps with
  | [] => (st, 0)
  | (_, v) :: rest =>
    if (fy_walk_result_add_recursive ok st v leaf_only).2 = 0 then
      walkAddRecPairs ok (fy_walk_result_add_recursive ok st v leaf_only).1
        rest leaf_only
    else fy_walk_result_add_recursive ok st v leaf_only
termination_by (1 + fy_node_pairs_size ps, 0)
decreasing_by
  all_goals apply Prod.Lex.left
  all_goals simp only [fy_node_pairs_size]
  all_goals omega

end

/-- The component text of a walk component. -/
def fy_walk_component.comp : fy_walk_component → String
  | .mk _ c _ _ _ => c

/-- The first numeric payload (`seq_index.index` / `seq_slice.start_index`). -/
def fy_walk_component.idx0 : fy_walk_component → Int
  | .mk _ _ i _ _ => i

/-- The second numeric payload (`seq_slice.end_index`). -/
def fy_walk_component.idx1 : fy_walk_component → Int
  | .mk _ _ _ i _ => i

theorem fy_walk_comp_size_eq (c : fy_walk_component) :
    fy_walk_comp_size c = 1 + fy_walk_comps_size c.children := by
  cases c; rfl

/-- `fy_walk_component_next_node_single`: the single-successor step of the
walk for non-multi components (root, alias, this, parent, key lookups,
sequence index and the assert filters); multi-class components yield
nothing here. -/
def fy_walk_component_next_node_single (ops : fy_doc_ops)
    (fwc : fy_walk_component) (fyn : fy_node) : Option fy_node :=
  match fwc.type with
  | fwct_start_root => some (ops.docRoot fyn)
  | fwct_root => some (ops.docRoot fyn)
  | fwct_start_alias => ops.lookupAnchor fyn fwc.comp
  | fwct_this => some fyn
  | fwct_parent => ops.parentOf fyn
  | fwct_simple_map_key =>
    if fy_node_is_mapping fyn then ops.lookupSimpleKey fyn fwc.comp else none
  | fwct_map_key =>
    if fy_node_is_mapping fyn then ops.lookupDocKey fyn fwc.comp else none
  | fwct_seq_index =>
    if fy_node_is_sequence fyn then fy_node_sequence_get_by_index fyn fwc.idx0
    else none
  | fwct_assert_collection => if ¬fy_node_is_scalar fyn then some fyn else none
  | fwct_assert_scalar => if fy_node_is_scalar fyn then some fyn else none
  | fwct_assert_sequence => if fy_node_is_sequence fyn then some fyn else none
  | fwct_assert_mapping => if fy_node_is_mapping fyn then some fyn else none
  | _ => none

/-- The final transfer of a chain's temporary results into the caller's
list (`while pop: fy_walk_result_add`; the C ignores the return value of
these adds). -/
def walkTransfer (ok : Nat → Bool) : List fy_node → fy_walk_state → fy_walk_state
  | [], st => st
  | n :: ns, st => walkTransfer ok ns (fy_walk_result_add ok st n).1

mutual

/-- `fy_walk_perform_internal` in a continuation-list presentation: the
first component of the list is `fwc`, the rest of the list is what
`fy_walk_component_next_in_seq` would deliver (siblings of `fwc`, bubbling
out of multis).  An empty list is the `!fwc` case: the node is added to the
result list.  Non-multi components step through
`fy_walk_component_next_node_single` (a missing successor is a silent
no-match); multi-class components dispatch on their type as the C switch
does.  The state carries the caller's result list and the allocation
counter; the return code is 0 or -1 as in C. -/
def fy_walk_perform_internal (ops : fy_doc_ops) (ok : Nat → Bool) :
    List fy_walk_component → fy_node → fy_walk_state → fy_walk_state × Int
  | [], fyn, st => fy_walk_result_add ok st fyn
  | fwc :: rest, fyn, st =>
    if ¬fy_walk_component_type_is_multi fwc.type then
      match fy_walk_component_next_node_single ops fwc fyn with
      | none => (st, 0)
      | some fyn' => fy_walk_perform_internal ops ok rest fyn' st
    else
      match fwc.type with
      | fwct_every_child =>
        walkEveryChild ops ok fwc rest fyn st
      | fwct_every_child_r =>
        walkRecursiveCase ops ok fwc rest fyn st false
      | fwct_every_leaf =>
        walkRecursiveCase ops ok fwc rest fyn st true
      | fwct_seq_slice =>
        if ¬fy_node_is_sequence fyn then (st, 0)
        else
          if fwc.idx0 < 0 ∨
              (if fwc.idx1 = -1 then (fy_node_sequence_item_count fyn : Int)
               else fwc.idx1) < 0 ∨
              fwc.idx0 ≥
                (if fwc.idx1 = -1 then (fy_node_sequence_item_count fyn : Int)
                 else fwc.idx1) then
            (st, 0)
          else if fwc.idx0 ≥ (fy_node_sequence_item_count fyn : Int) then
            (st, 0)
          else
            walkNodeList ops ok rest
              ((List.range' fwc.idx0.toNat
                  ((if fwc.idx1 = -1 then (fy_node_sequence_item_count fyn : Int)
                    else fwc.idx1).toNat - fwc.idx0.toNat)).filterMap
                (fun i => fy_node_sequence_get_by_index fyn (Int.ofNat i)))
              st
      | fwct_multi =>
        walkBranches ops ok fwc.children rest fyn st
      | fwct_chain =>
        walkChainCase ops ok fwc rest fyn st
      | _ => (st, 0)
termination_by comps fyn st => (fy_walk_comps_size comps, fy_node_size fyn, 1)
decreasing_by
  all_goals simp only [fy_walk_comps_size, fy_node_size, fy_node_list_size,
    fy_node_list_size_map_snd]
  all_goals try rw [fy_walk_comp_size_eq fwc]
  all_goals first
    | (apply Prod.Lex.left; omega)
    | (apply Prod.Lex.right; apply Prod.Lex.left; omega)
    | (apply Prod.Lex.right; apply Prod.Lex.right; omega)

/-- The every-child case of `fy_walk_perform_internal`: a scalar is added
to the results directly; for a sequence every item, and for a mapping every
value, is walked again with the same every-child component (the C recursion
passes `fwc` itself, not its successor). -/
def walkEveryChild (ops : fy_doc_ops) (ok : Nat → Bool)
    (fwc : fy_walk_component) (rest : List fy_walk_component) (fyn : fy_node)
    (st : fy_walk_state) : fy_walk_state × Int :=
  match fyn with
  | .scalar i => fy_walk_result_add ok st (.scalar i)
  | .sequence _ items => walkNodeList ops ok (fwc :: rest) items st
  | .mapping _ ps => walkNodeList ops ok (fwc :: rest) (ps.map (·.2)) st
termination_by (fy_walk_comps_size (fwc :: rest), fy_node_size fyn, 0)
decreasing_by
  all_goals simp only [fy_walk_comps_size, fy_node_size, fy_node_list_size,
    fy_node_list_size_map_snd]
  all_goals first
    | (apply Prod.Lex.left; omega)
    | (apply Prod.Lex.right; apply Prod.Lex.left; omega)
    | (apply Prod.Lex.right; apply Prod.Lex.right; omega)

/-- The chain case of `fy_walk_perform_internal`: the chain children run
into a fresh temporary result list; on success the temporaries either
transfer into the caller's results (no next component; the adds' return
values are ignored) or are walked through the next components. -/
def walkChainCase (ops : fy_doc_ops) (ok : Nat → Bool)
    (fwc : fy_walk_component) (rest : List fy_walk_component) (fyn : fy_node)
    (st : fy_walk_state) : fy_walk_state × Int :=
  match rest with
  | [] =>
    if (fy_walk_perform_internal ops ok fwc.children fyn
        { results := [], allocCnt := st.allocCnt }).2 = 0 then
      (walkTransfer ok
        (fy_walk_perform_internal ops ok fwc.children fyn
          { results := [], allocCnt := st.allocCnt }).1.results
        { st with allocCnt :=
            (fy_walk_perform_internal ops ok fwc.children fyn
              { results := [], allocCnt := st.allocCnt }).1.allocCnt }, 0)
    else
      ({ st with allocCnt :=
          (fy_walk_perform_internal ops ok fwc.children fyn
            { results := [], allocCnt := st.allocCnt }).1.allocCnt },
       (fy_walk_perform_internal ops ok fwc.children fyn
        { results := [], allocCnt := st.allocCnt }).2)
  | r :: rs =>
    if (fy_walk_perform_internal ops ok fwc.children fyn
        { results := [], allocCnt := st.allocCnt }).2 = 0 then
      walkNodeList ops ok (r :: rs)
        (fy_walk_perform_internal ops ok fwc.children fyn
          { results := [], allocCnt := st.allocCnt }).1.results
        { st with allocCnt :=
            (fy_walk_perform_internal ops ok fwc.children fyn
              { results := [], allocCnt := st.allocCnt }).1.allocCnt }
    else
      ({ st with allocCnt :=
          (fy_walk_perform_internal ops ok fwc.children fyn
            { results := [], allocCnt := st.allocCnt }).1.allocCnt },
       (fy_walk_perform_internal ops ok fwc.children fyn
        { results := [], allocCnt := st.allocCnt }).2)
termination_by (fy_walk_comps_size (fwc :: rest), fy_node_size fyn, 0)
decreasing_by
  all_goals simp only [fy_walk_comps_size, fy_node_size, fy_node_list_size,
    fy_node_list_size_map_snd]
  all_goals try rw [fy_walk_comp_size_eq fwc]
  all_goals first
    | (apply Prod.Lex.left; omega)
    | (apply Prod.Lex.right; apply Prod.Lex.left; omega)
    | (apply Prod.Lex.right; apply Prod.Lex.right; omega)

/-- The every-child-recursive / every-leaf case of
`fy_walk_perform_internal`: with no next component the recursive collection
goes straight into the caller's results; otherwise it goes into a temporary
list whose members are then walked through the rest of the components. -/
def walkRecursiveCase (ops : fy_doc_ops) (ok : Nat → Bool)
    (fwc : fy_walk_component) (rest : List fy_walk_component) (fyn : fy_node)
    (st : fy_walk_state) (leaf_only : Bool) : fy_walk_state × Int :=
  match rest with
  | [] => fy_walk_result_add_recursive ok st fyn leaf_only
  | r :: rs =>
    if (fy_walk_result_add_recursive ok
        { results := [], allocCnt := st.allocCnt } fyn leaf_only).2 = 0 then
      walkNodeList ops ok (r :: rs)
        (fy_walk_result_add_recursive ok
          { results := [], allocCnt := st.allocCnt } fyn leaf_only).1.results
        { st with allocCnt :=
            (fy_walk_result_add_recursive ok
              { results := [], allocCnt := st.allocCnt } fyn leaf_only).1.allocCnt }
    else
      ({ st with allocCnt :=
          (fy_walk_result_add_recursive ok
            { results := [], allocCnt := st.allocCnt } fyn leaf_only).1.allocCnt },
       (fy_walk_result_add_recursive ok
        { results := [], allocCnt := st.allocCnt } fyn leaf_only).2)
termination_by (fy_walk_comps_size (fwc :: rest), fy_node_size fyn, 0)
decreasing_by
  all_goals simp only [fy_walk_comps_size, fy_node_size, fy_node_list_size,
    fy_node_list_size_map_snd]
  all_goals try rw [fy_walk_comp_size_eq fwc]
  all_goals first
    | (apply Prod.Lex.left; omega)
    | (apply Prod.Lex.right; apply Prod.Lex.left; omega)
    | (apply Prod.Lex.right; apply Prod.Lex.right; omega)

/-- The for-each-node loops of the multi cases (stop at the first error,
as the C `rret`/`break` pattern does). -/
def walkNodeList (ops : fy_doc_ops) (ok : Nat → Bool)
    (comps : List fy_walk_component) (ns : List fy_node)
    (st : fy_walk_state) : fy_walk_state × Int :=
  match ns with
  | [] => (st, 0)
  | n :: ns2 =>
    if (fy_walk_perform_internal ops ok comps n st).2 = 0 then
      walkNodeList ops ok comps ns2 (fy_walk_perform_internal ops ok comps n st).1
    else fy_walk_perform_internal ops ok comps n st
termination_by (fy_walk_comps_size comps, 1 + fy_node_list_size ns, 0)
decreasing_by
  all_goals simp only [fy_walk_comps_size, fy_node_size, fy_node_list_size,
    fy_node_list_size_map_snd]
  all_goals first
    | (apply Prod.Lex.left; omega)
    | (apply Prod.Lex.right; apply Prod.Lex.left; omega)
    | (apply Prod.Lex.right; apply Prod.Lex.right; omega)

/-- The child iteration of the multi case: each child runs with the
continuation after the multi (`fy_walk_component_next_in_seq` bubbles out
of a multi). -/
def walkBranches (ops : fy_doc_ops) (ok : Nat → Bool)
    (branches : List fy_walk_component) (rest : List fy_walk_component)
    (fyn : fy_node) (st : fy_walk_state) : fy_walk_state × Int :=
  match branches with
  | [] => (st, 0)
  | c :: cs =>
    if (fy_walk_perform_internal ops ok (c :: rest) fyn st).2 = 0 then
      walkBranches ops ok cs rest fyn
        (fy_walk_perform_internal ops ok (c :: rest) fyn st).1
    else fy_walk_perform_internal ops ok (c :: rest) fyn st
termination_by (1 + fy_walk_comps_size branches + fy_walk_comps_size rest,
  fy_node_size fyn, 0)
decreasing_by
  all_goals simp only [fy_walk_comps_size, fy_node_size, fy_node_list_size,
    fy_node_list_size_map_snd]
  all_goals first
    | (apply Prod.Lex.left; omega)
    | (apply Prod.Lex.right; apply Prod.Lex.left; omega)
    | (apply Prod.Lex.right; apply Prod.Lex.right; omega)

end

/-- `fy_walk_perform`: reject a missing component list, then walk from the
head component. -/
def fy_walk_perform (ops : fy_doc_ops) (ok : Nat → Bool)
    (comps : List fy_walk_component) (fyn : fy_node) (st : fy_walk_state) :
    fy_walk_state × Int :=
  match comps with
  | [] => (st, -1)
  | _ => fy_walk_perform_internal ops ok comps fyn st


/-! ### Concrete artifacts and spec-mirror definitions for the claim checks -/

/-- Modelled from the spec: a concrete document-ops collaborator whose
lookups are all empty and whose root is the node itself (sufficient for
concrete runs that use no lookup). -/
def egOps : fy_doc_ops :=
  { docRoot := fun n => n
    parentOf := fun _ => none
    lookupAnchor := fun _ _ => none
    lookupSimpleKey := fun _ _ => none
    lookupDocKey := fun _ _ => none }

/-- A slash token at input position 0. -/
def slTokA : fy_token := { type := FYTT_PE_SLASH, pos := 0 }

/-- A slash token at input position 2. -/
def slTokB : fy_token := { type := FYTT_PE_SLASH, pos := 2 }

/-- A map-key operand expression whose token sits at input position 1. -/
def egKeyLeaf : fy_path_expr :=
  fy_path_expr.mk fpet_map_key (some { type := FYTT_PE_MAP_KEY, pos := 1 }) []

/-- Modelled from the spec: the operator-arrival rule as the spec words it —
pop and evaluate only while the stack top has strictly HIGHER precedence
than the incoming operator, then push — for comparison with the code's
`shuntOperator`, which also evaluates when the precedences are equal. -/
def shuntOperatorSpecPop (fyt : fy_token) :
    List fy_token → List fy_path_expr →
    Option (List fy_token × List fy_path_expr)
  | [], operands => some ([fyt], operands)
  | fyt_top :: rest, operands =>
    if fy_token_type_operator_prec fyt_top.type >
        fy_token_type_operator_prec fyt.type then
      match evaluateStep fyt_top operands with
      | none => none
      | some operands2 => shuntOperatorSpecPop fyt rest operands2
    else some (fyt :: fyt_top :: rest, operands)


/-! ### Helper lemmas about the result list -/

/-- Duplicate-freedom of a result list by node identity. -/
def nodupIds (l : List fy_node) : Prop := (l.map fy_node.nodeId).Nodup

theorem fy_walk_result_add_front (ok : Nat → Bool) (st : fy_walk_state)
    (fyn : fy_node) :
    st.results <+: (fy_walk_result_add ok st fyn).1.results := by
  unfold fy_walk_result_add
  split_ifs <;> simp

theorem fy_walk_result_add_nodup (ok : Nat → Bool) (st : fy_walk_state)
    (fyn : fy_node) (h : nodupIds st.results) :
    nodupIds (fy_walk_result_add ok st fyn).1.results := by
  unfold fy_walk_result_add
  split_ifs with h1 h2
  · exact h
  · simp only [nodupIds, List.map_append, List.map_cons, List.map_nil] at h ⊢
    rw [List.nodup_append]
    refine ⟨h, List.nodup_singleton _, ?_⟩
    intro a ha
    simp only [List.mem_singleton]
    intro hb
    subst hb
    simp only [List.mem_map] at ha
    obtain ⟨x, hx, hxa⟩ := ha
    simp only [List.any_eq_true, fy_node_same] at h1
    exact h1 ⟨x, hx, by simp [hxa]⟩
  · exact h

theorem fy_walk_result_add_ret (ok : Nat → Bool) (st : fy_walk_state)
    (fyn : fy_node) (hok : ∀ k, ok k = true) :
    (fy_walk_result_add ok st fyn).2 = 0 := by
  unfold fy_walk_result_add
  split_ifs with h1 h2
  · rfl
  · rfl
  · exact absurd (hok st.allocCnt) h2

theorem walkTransfer_front (ok : Nat → Bool) (ns : List fy_node) :
    ∀ st : fy_walk_state, st.results <+: (walkTransfer ok ns st).results := by
  induction ns with
  | nil => intro st; simp [walkTransfer]
  | cons n ns ih =>
    intro st
    exact (fy_walk_result_add_front ok st n).trans (ih _)

theorem walkTransfer_nodup (ok : Nat → Bool) (ns : List fy_node) :
    ∀ st : fy_walk_state, nodupIds st.results →
      nodupIds (walkTransfer ok ns st).results := by
  induction ns with
  | nil => intro st h; simpa [walkTransfer] using h
  | cons n ns ih =>
    intro st h
    exact ih _ (fy_walk_result_add_nodup ok st n h)

def WOK (ok : Nat → Bool) (st : fy_walk_state) (r : fy_walk_state × Int) : Prop :=
  st.results <+: r.1.results ∧ (nodupIds st.results → nodupIds r.1.results) ∧
  ((∀ k, ok k = true) → r.2 = 0)

theorem WOK_refl0 {ok : Nat → Bool} {st : fy_walk_state} : WOK ok st (st, 0) :=
  ⟨List.prefix_rfl, id, fun _ => rfl⟩

theorem WOK_result_add {ok : Nat → Bool} {st : fy_walk_state} {fyn : fy_node} :
    WOK ok st (fy_walk_result_add ok st fyn) :=
  ⟨fy_walk_result_add_front ok st fyn, fy_walk_result_add_nodup ok st fyn,
   fy_walk_result_add_ret ok st fyn⟩

theorem WOK_trans {ok : Nat → Bool} {st : fy_walk_state} {p : fy_walk_state × Int}
    {r : fy_walk_state × Int} (h1 : WOK ok st p) (h2 : WOK ok p.1 r) :
    WOK ok st r :=
  ⟨h1.1.trans h2.1, fun hn => h2.2.1 (h1.2.1 hn), h2.2.2⟩

theorem WOK_transfer0 (ok : Nat → Bool) (r : List fy_node)
    (s st : fy_walk_state) (h : s.results = st.results) :
    WOK ok st (walkTransfer ok r s, 0) := by
  refine ⟨?_, ?_, fun _ => rfl⟩
  · rw [← h]
    exact walkTransfer_front ok r s
  · intro hn
    exact walkTransfer_nodup ok r s (by rw [h]; exact hn)

theorem fy_walk_result_add_recursive_master (ok : Nat → Bool) :
    (∀ (st : fy_walk_state) (fyn : fy_node) (lo : Bool),
        WOK ok st (fy_walk_result_add_recursive ok st fyn lo)) ∧
    (∀ (st : fy_walk_state) (ps : List (fy_node × fy_node)) (lo : Bool),
        WOK ok st (walkAddRecPairs ok st ps lo)) ∧
    (∀ (st : fy_walk_state) (items : List fy_node) (lo : Bool),
        WOK ok st (walkAddRecList ok st items lo)) := by
  apply fy_walk_result_add_recursive.mutual_induct ok
    (fun st fyn lo => WOK ok st (fy_walk_result_add_recursive ok st fyn lo))
    (fun st ps lo => WOK ok st (walkAddRecPairs ok st ps lo))
    (fun st items lo => WOK ok st (walkAddRecList ok st items lo))
  all_goals intros
  all_goals simp only [fy_walk_result_add_recursive, walkAddRecPairs, walkAddRecList]
  all_goals try simp_all only [Bool.not_eq_true, if_true, if_false, Bool.false_eq_true,
    ite_false, ite_true, not_false_eq_true]
  all_goals first
    | exact WOK_result_add
    | exact WOK_refl0
    | assumption
    | (rename_i h ih; exact WOK_trans WOK_result_add ih)
    | (rename_i h ih; exact WOK_trans h ih)

theorem fy_walk_perform_internal_master (ops : fy_doc_ops) (ok : Nat → Bool) :
    (∀ (comps : List fy_walk_component) (fyn : fy_node) (st : fy_walk_state),
        WOK ok st (fy_walk_perform_internal ops ok comps fyn st)) ∧
    (∀ (fwc : fy_walk_component) (rest : List fy_walk_component) (fyn : fy_node)
        (st : fy_walk_state),
        WOK ok st (walkChainCase ops ok fwc rest fyn st)) ∧
    (∀ (comps : List fy_walk_component) (ns : List fy_node)
        (st : fy_walk_state),
        WOK ok st (walkNodeList ops ok comps ns st)) ∧
    (∀ (branches rest : List fy_walk_component) (fyn : fy_node)
        (st : fy_walk_state),
        WOK ok st (walkBranches ops ok branches rest fyn st)) ∧
    (∀ (fwc : fy_walk_component) (rest : List fy_walk_component) (fyn : fy_node)
        (st : fy_walk_state) (lo : Bool),
        WOK ok st (walkRecursiveCase ops ok fwc rest fyn st lo)) ∧
    (∀ (fwc : fy_walk_component) (rest : List fy_walk_component) (fyn : fy_node)
        (st : fy_walk_state),
        WOK ok st (walkEveryChild ops ok fwc rest fyn st)) := by
  apply fy_walk_perform_internal.mutual_induct ops ok
    (fun comps fyn st => WOK ok st (fy_walk_perform_internal ops ok comps fyn st))
    (fun fwc rest fyn st => WOK ok st (walkChainCase ops ok fwc rest fyn st))
    (fun comps ns st => WOK ok st (walkNodeList ops ok comps ns st))
    (fun branches rest fyn st => WOK ok st (walkBranches ops ok branches rest fyn st))
    (fun fwc rest fyn st lo => WOK ok st (walkRecursiveCase ops ok fwc rest fyn st lo))
    (fun fwc rest fyn st => WOK ok st (walkEveryChild ops ok fwc rest fyn st))
  case case1 =>
    intros
    rw [fy_walk_perform_internal.eq_1]
    exact WOK_result_add
  case case2 =>
    intros
    rename_i h x
    simp only [fy_walk_perform_internal.eq_2, if_pos h, x]
    exact WOK_refl0
  case case3 =>
    intros
    rename_i h y x ih
    simp only [fy_walk_perform_internal.eq_2, if_pos h, x]
    exact ih
  case case4 =>
    intros
    rename_i h x ih
    simp only [fy_walk_perform_internal.eq_2, if_neg h, x]
    exact ih
  case case5 =>
    intros
    rename_i h x ih
    simp only [fy_walk_perform_internal.eq_2, if_neg h, x]
    exact ih
  case case6 =>
    intros
    rename_i h x ih
    simp only [fy_walk_perform_internal.eq_2, if_neg h, x]
    exact ih
  case case7 =>
    intros
    rename_i h x h2
    simp only [fy_walk_perform_internal.eq_2]
    rw [if_neg h]
    simp only [x]
    rw [if_pos h2]
    exact WOK_refl0
  case case8 =>
    intros
    rename_i h x h2 h3
    simp only [fy_walk_perform_internal.eq_2]
    rw [if_neg h]
    simp only [x]
    simp only [dite_eq_ite] at h3
    rw [if_neg h2, if_pos h3]
    exact WOK_refl0
  case case9 =>
    intros
    rename_i h x h2 h3 h4
    simp only [fy_walk_perform_internal.eq_2]
    rw [if_neg h]
    simp only [x]
    simp only [dite_eq_ite] at h3
    rw [if_neg h2, if_neg h3, if_pos h4]
    exact WOK_refl0
  case case10 =>
    intros
    rename_i h x h2 h3 h4 ih
    simp only [fy_walk_perform_internal.eq_2]
    rw [if_neg h]
    simp only [x]
    simp only [dite_eq_ite] at h3 ih
    rw [if_neg h2, if_neg h3, if_neg h4]
    exact ih
  case case11 =>
    intros
    rename_i h x ih
    simp only [fy_walk_perform_internal.eq_2, if_neg h, x]
    exact ih
  case case12 =>
    intros
    rename_i h x ih
    simp only [fy_walk_perform_internal.eq_2, if_neg h, x]
    exact ih
  case case13 =>
    intros
    rename_i h x5 x4 x3 x2 x1 x0
    exfalso
    have hm := not_not.mp h
    simp only [fy_walk_component_type_is_multi, decide_eq_true_eq] at hm
    rcases hm with hh | hh | hh | hh | hh | hh
    exacts [x5 hh, x4 hh, x3 hh, x2 hh, x1 hh, x0 hh]
  case case14 =>
    intros
    rename_i fwc fyn st h ih
    simp only [walkChainCase.eq_1, if_pos h]
    exact WOK_transfer0 ok _ _ st rfl
  case case15 =>
    intros
    rename_i h ih
    simp only [walkChainCase.eq_1, if_neg h]
    exact ⟨List.prefix_rfl, id, fun hok => absurd (ih.2.2 hok) h⟩
  case case16 =>
    intros
    rename_i h ih2 ih1
    simp only [walkChainCase.eq_2, if_pos h]
    exact ⟨ih1.1, fun hn => ih1.2.1 hn, ih1.2.2⟩
  case case17 =>
    intros
    rename_i h ih1
    simp only [walkChainCase.eq_2, if_neg h]
    exact ⟨List.prefix_rfl, id, fun hok => absurd (ih1.2.2 hok) h⟩
  case case18 =>
    intros
    rw [walkNodeList.eq_1]
    exact WOK_refl0
  case case19 =>
    intros
    rename_i h ih2 ih1
    simp only [walkNodeList.eq_2, if_pos h]
    exact WOK_trans ih2 ih1
  case case20 =>
    intros
    rename_i h ih1
    simp only [walkNodeList.eq_2, if_neg h]
    exact ih1
  case case21 =>
    intros
    rw [walkBranches.eq_1]
    exact WOK_refl0
  case case22 =>
    intros
    rename_i h ih2 ih1
    simp only [walkBranches.eq_2, if_pos h]
    exact WOK_trans ih2 ih1
  case case23 =>
    intros
    rename_i h ih1
    simp only [walkBranches.eq_2, if_neg h]
    exact ih1
  case case24 =>
    intros
    rw [walkRecursiveCase.eq_1]
    exact (fy_walk_result_add_recursive_master ok).1 _ _ _
  case case25 =>
    intros
    rename_i h ih1
    simp only [walkRecursiveCase.eq_2, if_pos h]
    exact ⟨ih1.1, fun hn => ih1.2.1 hn, ih1.2.2⟩
  case case26 =>
    intros
    rename_i h
    simp only [walkRecursiveCase.eq_2, if_neg h]
    exact ⟨List.prefix_rfl, id,
      fun hok => absurd (((fy_walk_result_add_recursive_master ok).1 _ _ _).2.2 hok) h⟩
  case case27 =>
    intros
    rw [walkEveryChild.eq_1]
    exact WOK_result_add
  case case28 =>
    intros
    rename_i ih
    rw [walkEveryChild.eq_2]
    exact ih
  case case29 =>
    intros
    rename_i ih
    rw [walkEveryChild.eq_3]
    exact ih


/-! ### The claims -/

/-- Claim C1, counterexample: on two equal-precedence slash operators the
code's shunting loop evaluates the stacked slash (the empty-stack slash
evaluation turns it into a root operand) instead of pushing the new slash on
top of it, as the spec's strictly-higher pop rule prescribes. -/
theorem C1_equal_prec_counterexample :
    shuntOperator slTokB [slTokA] [] =
      some ([slTokB], [fy_path_expr.mk fpet_root (some slTokA) []]) ∧
    shuntOperatorSpecPop slTokB [slTokA] [] =
      some ([slTokB, slTokA], []) ∧
    shuntOperator slTokB [slTokA] [] ≠ shuntOperatorSpecPop slTokB [slTokA] [] := by
  refine ⟨rfl, rfl, by decide⟩

/-- Claim C1: the operator precedences are filters 5, slash 10, comma 15,
sibling 20, and upon arrival of an operator whose precedence is less than or
EQUAL to the stack top's, the top is popped and evaluated (the spec's pop
rule must read "greater or equal", not "strictly higher": a top of equal
precedence is evaluated before the new operator is pushed). -/
theorem C1_shunt_evaluates_on_equal_prec
    (fyt fyt_top : fy_token) (rest : List fy_token)
    (operands : List fy_path_expr)
    (hle : fy_token_type_operator_prec fyt.type ≤
      fy_token_type_operator_prec fyt_top.type) :
    (fy_token_type_operator_prec FYTT_PE_SCALAR_FILTER = 5 ∧
     fy_token_type_operator_prec FYTT_PE_SLASH = 10 ∧
     fy_token_type_operator_prec FYTT_PE_COMMA = 15 ∧
     fy_token_type_operator_prec FYTT_PE_SIBLING = 20) ∧
    shuntOperator fyt (fyt_top :: rest) operands =
      match evaluateStep fyt_top operands with
      | none => none
      | some operands2 => shuntOperator fyt rest operands2 := by
  refine ⟨⟨rfl, rfl, rfl, rfl⟩, ?_⟩
  simp only [shuntOperator]
  rw [if_neg (not_lt.mpr hle)]

/-- Claim C1, witness: the equal-precedence evaluation on two concrete
slash tokens. -/
theorem C1_witness :
    fy_token_type_operator_prec slTokB.type ≤
      fy_token_type_operator_prec slTokA.type ∧
    shuntOperator slTokB [slTokA] [] =
      match evaluateStep slTokA [] with
      | none => none
      | some operands2 => shuntOperator slTokB [] operands2 :=
  ⟨by decide,
   (C1_shunt_evaluates_on_equal_prec slTokB slTokA [] [] (by decide)).2⟩

/-- Claim C3 (code bug): the token lexer accumulates digits with a bitwise
OR — `nval = (val * 10) | (c - 48)` — instead of an addition, so already the
overflow-free literal "12" lexes to a SeqIndex token with payload
`(1 * 10) ||| 2 = 10` rather than 12, while the strtol-based legacy path
computes 12 from the same digits. -/
theorem C3_or_accumulation_code_bug :
    fy_path_fetch_seq_index_or_slice ['1', '2'] 0 =
      some ({ type := FYTT_PE_SEQ_INDEX, pos := 0, start_index := 10 }, []) ∧
    strtol10 ['1', '2'] = (12, []) ∧
    (10 : Int) ≠ 12 :=
  ⟨rfl, rfl, by decide⟩

/-- Claim C4, counterexample: the token lexer and the shunting parser
accept the slice literal "5:2" although 5 ≥ 2, producing a SeqSlice AST
node with start 5 and end 2 — no parse-time rejection happens on the token
path. -/
theorem C4_counterexample :
    fy_path_parse_full noFlowDoc ['5', ':', '2'] =
      some (fy_path_expr.mk fpet_seq_slice
        (some { type := FYTT_PE_SEQ_SLICE, pos := 0, start_index := 5,
                end_index := 2 }) []) := rfl

/-- Claim C4: amended — on the legacy strtol path every successfully
constructed seq_slice component is validated: its start index is
non-negative and, unless the end is open (encoded as -1), the end is
positive and strictly greater than the start; violating literals are
rejected with an error.  The token-path lexer performs no such validation
(see the counterexample). -/
theorem C4_strtol_slice_validated (text : List Char)
    (ch : List fy_walk_component) (c : fy_walk_component)
    (h : fy_walk_mk_component fwct_seq_slice text ch = some c) :
    0 ≤ c.idx0 ∧ (c.idx1 ≠ -1 → 0 ≤ c.idx1 ∧ c.idx0 < c.idx1) := by
  simp only [fy_walk_mk_component] at h
  split at h
  · split at h
    · exact Option.noConfusion h
    · split at h
      · injection h with h2
        subst h2
        simp only [fy_walk_component.idx0, fy_walk_component.idx1]
        exact ⟨by omega, fun hab => absurd rfl hab⟩
      · split at h
        · exact Option.noConfusion h
        · split at h
          · exact Option.noConfusion h
          · injection h with h2
            subst h2
            simp only [fy_walk_component.idx0, fy_walk_component.idx1]
            refine ⟨by omega, fun _ => by omega⟩
  · exact Option.noConfusion h

/-- Claim C4, witness: the valid slice literal "1:3" and its validated
payload. -/
theorem C4_witness :
    fy_walk_mk_component fwct_seq_slice ['1', ':', '3'] [] =
      some (fy_walk_component.mk fwct_seq_slice
        (String.mk ['1', ':', '3']) 1 3 []) ∧
    (0 ≤ (fy_walk_component.mk fwct_seq_slice
        (String.mk ['1', ':', '3']) 1 3 []).idx0 ∧
     ((fy_walk_component.mk fwct_seq_slice
        (String.mk ['1', ':', '3']) 1 3 []).idx1 ≠ -1 →
       0 ≤ (fy_walk_component.mk fwct_seq_slice
        (String.mk ['1', ':', '3']) 1 3 []).idx1 ∧
       (fy_walk_component.mk fwct_seq_slice
        (String.mk ['1', ':', '3']) 1 3 []).idx0 <
       (fy_walk_component.mk fwct_seq_slice
        (String.mk ['1', ':', '3']) 1 3 []).idx1)) :=
  ⟨rfl, C4_strtol_slice_validated ['1', ':', '3'] [] _ rfl⟩

/-- Claim C6, counterexample: a Slash with an EMPTY operand stack does not
fail for a missing (supposedly required) right operand — it evaluates to a
root operand. -/
theorem C6_counterexample :
    evaluateStep slTokA [] =
      some [fy_path_expr.mk fpet_root (some slTokA) []] := rfl

/-- Claim C6: amended — the Slash evaluation requires no operand at all: on
an empty operand stack it pushes a Root; with a single operand present the
result is Root-then-operand when the slash starts before the operand's span
and operand-then-AssertCollection otherwise; with two operands it builds
the flattened chain of both, where the flattening of `slashCombine` wraps a
non-chain operand as a singleton and splices the children of a chain
operand. -/
theorem C6_slash_evaluation (fyt : fy_token)
    (h : fyt.type = FYTT_PE_SLASH) :
    evaluateStep fyt [] = some [fy_path_expr.mk fpet_root (some fyt) []] ∧
    (∀ (exprr : fy_path_expr) (m : Nat),
       fy_path_expr_start_mark exprr = some m →
       evaluateStep fyt [exprr] =
         some [if fyt.pos < m then
                 slashCombine (fy_path_expr.mk fpet_root (some fyt) []) exprr
               else
                 slashCombine exprr
                   (fy_path_expr.mk fpet_assert_collection (some fyt) [])]) ∧
    (∀ (exprr exprl : fy_path_expr) (rest : List fy_path_expr),
       evaluateStep fyt (exprr :: exprl :: rest) =
         some (slashCombine exprl exprr :: rest)) ∧
    (∀ (exprl exprr : fy_path_expr),
       (slashCombine exprl exprr).type = fpet_chain ∧
       (slashCombine exprl exprr).children =
         (if exprl.type = fpet_chain then exprl.children else [exprl]) ++
         (if exprr.type = fpet_chain then exprr.children else [exprr])) := by
  refine ⟨?_, ?_, ?_, ?_⟩
  · simp only [evaluateStep, h]
  · intro exprr m hm
    simp only [evaluateStep, h, hm]
    split <;> rfl
  · intro exprr exprl rest
    simp only [evaluateStep, h]
  · intro exprl exprr
    simp only [slashCombine]
    split_ifs <;>
      simp_all [fy_path_expr.type, fy_path_expr.children]

/-- Claim C6, witness: the slash cases on concrete operands. -/
theorem C6_witness :
    evaluateStep slTokA [] =
      some [fy_path_expr.mk fpet_root (some slTokA) []] ∧
    evaluateStep slTokA [egKeyLeaf] =
      some [if slTokA.pos < 1 then
              slashCombine (fy_path_expr.mk fpet_root (some slTokA) []) egKeyLeaf
            else
              slashCombine egKeyLeaf
                (fy_path_expr.mk fpet_assert_collection (some slTokA) [])] :=
  ⟨(C6_slash_evaluation slTokA rfl).1,
   (C6_slash_evaluation slTokA rfl).2.1 egKeyLeaf 1 rfl⟩

/-- Claim C10: empty input is rejected everywhere: `fy_walk_create` rejects
the empty path and any all-space path explicitly (the trim step leaves
nothing), and the token-based parser returns no AST for an empty token
stream (the final exactly-one-operand check fails), for the empty raw
input, and for a single-space input (whose tokenization already fails). -/
theorem C10_empty_input_rejected (cs : List Char)
    (hsp : cs.all c_isspace = true) :
    fy_walk_create cs = none ∧
    fy_path_parse_expression ([] : List fy_token) = none ∧
    fy_path_parse_full noFlowDoc [] = none ∧
    fy_path_parse_full noFlowDoc [' '] = none := by
  refine ⟨?_, rfl, rfl, rfl⟩
  by_cases hc : cs = []
  · subst hc
    rfl
  · have hdrop : cs.dropWhile c_isspace = [] := by
      rw [List.dropWhile_eq_nil_iff]
      intro x hx
      exact List.all_eq_true.mp hsp x hx
    have htrim : trimSpaces cs = [] := by
      simp [trimSpaces, hdrop]
    simp [fy_walk_create, hc, htrim]

/-- Claim C10, witness: a concrete two-space input. -/
theorem C10_witness :
    ([' ', ' '].all c_isspace = true) ∧
    fy_walk_create [' ', ' '] = none :=
  ⟨by decide, (C10_empty_input_rejected [' ', ' '] (by decide)).1⟩

theorem walkBuildSplit_singleton (sp : walk_split)
    (cs : List fy_walk_component) (h : walkBuildSplit sp = some cs) :
    ∃ c, cs = [c] := by
  simp only [walkBuildSplit] at h
  split at h
  · exact Option.noConfusion h
  · split at h
    · injection h with h2
      exact ⟨_, h2.symm⟩
    · injection h with h2
      exact ⟨_, h2.symm⟩

theorem walkProcessGroup_append (splits : List walk_split)
    (comps comps2 : List fy_walk_component)
    (h : walkProcessGroup splits comps = some comps2) :
    ∃ c, comps2 = comps ++ [c] := by
  simp only [walkProcessGroup] at h
  split at h
  · exact Option.noConfusion h
  · rename_i hne
    split at h
    · exact Option.noConfusion h
    · rename_i items heq
      split at h
      · injection h with h2
        exact ⟨_, h2.symm⟩
      · rename_i hlen
        cases splits with
        | nil => exact absurd rfl hne
        | cons sp rest =>
          cases rest with
          | nil =>
            simp only [walkBuildSplits] at heq
            split at heq
            · exact Option.noConfusion heq
            · rename_i cs hbs
              injection heq with h3
              obtain ⟨c, hc⟩ := walkBuildSplit_singleton sp cs hbs
              injection h with h2
              refine ⟨c, ?_⟩
              rw [← h2, ← h3, hc]
              simp
          | cons sp2 rest2 =>
            exfalso
            simp only [List.length] at hlen
            omega

theorem walkCreateBodyStep_done (s : List Char)
    (comps res : List fy_walk_component)
    (h : walkCreateBodyStep s comps = some (.inl res))
    (hmid : ∀ c ∈ comps.dropLast,
      fy_walk_component_type_is_terminating c.type = false)
    (hall : s ≠ [] → ∀ c ∈ comps,
      fy_walk_component_type_is_terminating c.type = false) :
    ∀ c ∈ res.dropLast,
      fy_walk_component_type_is_terminating c.type = false := by
  simp only [walkCreateBodyStep] at h
  split at h
  · split at h
    · exact Option.noConfusion h
    · injection h with h2
      injection h2 with h3
      subst h3
      exact hmid
  · split at h
    · simp only [fy_walk_mk_component] at h
      injection h with h2
      injection h2 with h3
      subst h3
      intro x hx
      rw [List.dropLast_concat] at hx
      exact hall (by simp) x hx
    · split at h
      · exact Option.noConfusion h
      · split at h
        · exact Option.noConfusion h
        · split at h
          · split at h
            · exact Option.noConfusion h
            · injection h with h2
              exact Sum.noConfusion h2
          · injection h with h2
            exact Sum.noConfusion h2

theorem walkCreateBodyStep_next (s : List Char)
    (comps : List fy_walk_component) (s2 : List Char)
    (comps2 : List fy_walk_component)
    (h : walkCreateBodyStep s comps = some (.inr (s2, comps2)))
    (hall : ∀ c ∈ comps,
      fy_walk_component_type_is_terminating c.type = false) :
    (∀ c ∈ comps2.dropLast,
      fy_walk_component_type_is_terminating c.type = false) ∧
    (s2 ≠ [] → ∀ c ∈ comps2,
      fy_walk_component_type_is_terminating c.type = false) := by
  simp only [walkCreateBodyStep] at h
  split at h
  · split at h
    · exact Option.noConfusion h
    · injection h with h2
      exact Sum.noConfusion h2
  · split at h
    · simp only [fy_walk_mk_component] at h
      injection h with h2
      exact Sum.noConfusion h2
    · split at h
      · exact Option.noConfusion h
      · rename_i pr
        split at h
        · exact Option.noConfusion h
        · rename_i comps2x heq2
          split at h
          · rename_i last heq3
            split at h
            · exact Option.noConfusion h
            · rename_i hif
              injection h with h2
              injection h2 with h3
              injection h3 with hs2e hc2e
              obtain ⟨newc, hc2⟩ := walkProcessGroup_append _ _ _ heq2
              have hlast : last = newc := by
                rw [hc2, List.getLast?_concat] at heq3
                exact (Option.some_inj.mp heq3).symm
              subst hs2e
              rw [← hc2e, hc2]
              constructor
              · intro x hx
                rw [List.dropLast_concat] at hx
                exact hall x hx
              · intro hs2 x hx
                rcases List.mem_append.mp hx with hx1 | hx2
                · exact hall x hx1
                · have hxe : x = newc := by simpa using hx2
                  subst hxe
                  cases hb : fy_walk_component_type_is_terminating x.type
                  · rfl
                  · exact absurd ⟨by rw [hlast]; exact hb, hs2⟩ hif
          · rename_i heq3
            obtain ⟨newc, hc2⟩ := walkProcessGroup_append _ _ _ heq2
            rw [hc2, List.getLast?_concat] at heq3
            exact Option.noConfusion heq3

theorem walkCreateLoop_no_mid_terminating (fuel : Nat) :
    ∀ s comps res, walkCreateLoop fuel s comps = some res →
      (∀ c ∈ comps.dropLast,
        fy_walk_component_type_is_terminating c.type = false) →
      (s ≠ [] → ∀ c ∈ comps,
        fy_walk_component_type_is_terminating c.type = false) →
      ∀ c ∈ res.dropLast,
        fy_walk_component_type_is_terminating c.type = false := by
  induction fuel with
  | zero =>
    intro s comps res h hmid hall
    simp only [walkCreateLoop] at h
    exact Option.noConfusion h
  | succ n ih =>
    intro s comps res h hmid hall
    cases s with
    | nil =>
      simp only [walkCreateLoop] at h
      split at h
      · exact Option.noConfusion h
      · injection h with h2
        subst h2
        exact hmid
    | cons c rest =>
      simp only [walkCreateLoop] at h
      split at h
      · simp only [fy_walk_mk_component] at h
        split at h
        · injection h with h2
          subst h2
          intro x hx
          simp at hx
        · split at h
          · exact Option.noConfusion h
          · rename_i res2 hstep
            injection h with h2
            subst h2
            exact walkCreateBodyStep_done _ _ _ hstep (by simp)
              (fun _ x hx => by
                have hxe := List.mem_singleton.mp hx
                subst hxe
                rfl)
          · rename_i s2 comps2 hstep
            have hp := walkCreateBodyStep_next _ _ _ _ hstep
              (fun x hx => by
                have hxe := List.mem_singleton.mp hx
                subst hxe
                rfl)
            exact ih _ _ _ h hp.1 hp.2
      · split at h
        · exact Option.noConfusion h
        · rename_i res2 hstep
          injection h with h2
          subst h2
          exact walkCreateBodyStep_done _ _ _ hstep hmid hall
        · rename_i s2 comps2 hstep
          have hp := walkCreateBodyStep_next _ _ _ _ hstep (hall (by simp))
          exact ih _ _ _ h hp.1 hp.2

/-- Claim C2, counterexample: "/a$/b" — a `$` (assert-scalar) filter
followed by a further path component — is accepted by the token-based
path-expression parser, producing an AST instead of the parse error the
spec requires. -/
theorem C2_counterexample :
    (fy_path_parse_full noFlowDoc ['/', 'a', '$', '/', 'b']).isSome = true := rfl

/-- Claim C2: amended — the legacy walk-context parser (`fy_walk_create`)
does enforce the rule: every component list it returns carries terminating
components at most in the last position, and the violating path "/**/x" is
rejected; the token-based shunting-yard parser however accepts a
terminating filter followed by further components ("/a$/b" parses to an
AST). -/
theorem C2_terminating_position (path : List Char)
    (comps : List fy_walk_component)
    (h : fy_walk_create path = some comps) :
    (∀ c ∈ comps.dropLast,
       fy_walk_component_type_is_terminating c.type = false) ∧
    fy_walk_create ['/', '*', '*', '/', 'x'] = none ∧
    (fy_path_parse_full noFlowDoc ['/', 'a', '$', '/', 'b']).isSome = true := by
  refine ⟨?_, rfl, rfl⟩
  simp only [fy_walk_create] at h
  split at h
  · exact Option.noConfusion h
  · split at h
    · exact Option.noConfusion h
    · exact walkCreateLoop_no_mid_terminating _ _ _ _ h (by simp)
        (fun _ x hx => by simp at hx)

/-- Claim C2, witness: the single-component path "a". -/
theorem C2_witness :
    fy_walk_create ['a'] =
      some [fy_walk_component.mk fwct_simple_map_key (String.mk ['a']) 0 0 []] ∧
    (∀ c ∈ ([fy_walk_component.mk fwct_simple_map_key
        (String.mk ['a']) 0 0 []] : List fy_walk_component).dropLast,
       fy_walk_component_type_is_terminating c.type = false) :=
  ⟨rfl, (C2_terminating_position ['a'] _ rfl).1⟩

/-- Claim C5, counterexample: with an allocator that succeeds once and then
fails, evaluating the slice `0:2` over a two-element sequence stops with
error -1 while the caller's result list KEEPS the partial result (the first
element): partial results are not discarded, and no lenient-mode switch
exists to ask for this behaviour. -/
theorem C5_counterexample :
    (fy_walk_perform egOps (fun k => k == 0)
      [fy_walk_component.mk fwct_seq_slice (String.mk ['0', ':', '2']) 0 2 []]
      (fy_node.sequence 1 [fy_node.scalar 6, fy_node.scalar 7])
      { results := [], allocCnt := 0 }).1.results = [fy_node.scalar 6] ∧
    (fy_walk_perform egOps (fun k => k == 0)
      [fy_walk_component.mk fwct_seq_slice (String.mk ['0', ':', '2']) 0 2 []]
      (fy_node.sequence 1 [fy_node.scalar 6, fy_node.scalar 7])
      { results := [], allocCnt := 0 }).2 = -1 := by
  constructor <;>
    simp [fy_walk_perform, fy_walk_perform_internal, walkNodeList,
      fy_walk_result_add, fy_node_same, fy_node.nodeId, fy_node_is_sequence,
      fy_node_sequence_item_count, fy_node_sequence_items,
      fy_node_sequence_get_by_index, fy_walk_component.type,
      fy_walk_component.idx0, fy_walk_component.idx1,
      fy_walk_component_type_is_multi, List.range']

/-- Claim C5: amended — the evaluator has no lenient or strict mode and
partial results are RETAINED, never discarded: the caller's result list is
always an initial segment of the output list, on error as on success, and
errors arise solely from the allocation oracle — under an always-succeeding
allocator the return code is 0, so a no-match situation never raises an
error. -/
theorem C5_partial_results_retained (ops : fy_doc_ops) (ok : Nat → Bool)
    (comps : List fy_walk_component) (fyn : fy_node) (st : fy_walk_state) :
    st.results <+: (fy_walk_perform_internal ops ok comps fyn st).1.results ∧
    ((∀ k, ok k = true) →
      (fy_walk_perform_internal ops ok comps fyn st).2 = 0) :=
  ⟨((fy_walk_perform_internal_master ops ok).1 comps fyn st).1,
   ((fy_walk_perform_internal_master ops ok).1 comps fyn st).2.2⟩

/-- Claim C5, witness: a concrete no-match-free run with a perfect
allocator returns 0. -/
theorem C5_witness :
    (fy_walk_perform_internal egOps (fun _ => true)
      [fy_walk_component.mk fwct_this (String.mk []) 0 0 []]
      (fy_node.scalar 3) { results := [], allocCnt := 0 }).2 = 0 :=
  (C5_partial_results_retained egOps (fun _ => true)
    [fy_walk_component.mk fwct_this (String.mk []) 0 0 []]
    (fy_node.scalar 3) { results := [], allocCnt := 0 }).2 (fun _ => rfl)

/-- Claim C8: the result list never holds the same node twice: adding a
node already present by node identity leaves state and list unchanged and
reports success (0); a genuinely new node is appended at the tail of the
list when its allocation succeeds (preserving first-encounter order); and
the whole walk preserves duplicate-freedom of the result identities. -/
theorem C8_result_identity_dedup (ok : Nat → Bool) (st : fy_walk_state)
    (fyn : fy_node) (ops : fy_doc_ops) (comps : List fy_walk_component)
    (root : fy_node) :
    (st.results.any (fy_node_same fyn) = true →
       fy_walk_result_add ok st fyn = (st, 0)) ∧
    (st.results.any (fy_node_same fyn) = false → ok st.allocCnt = true →
       (fy_walk_result_add ok st fyn).1.results = st.results ++ [fyn] ∧
       (fy_walk_result_add ok st fyn).2 = 0) ∧
    (nodupIds st.results →
       nodupIds (fy_walk_perform_internal ops ok comps root st).1.results) := by
  refine ⟨?_, ?_, ?_⟩
  · intro hp
    simp only [fy_walk_result_add, if_pos hp]
  · intro hp hok
    simp only [fy_walk_result_add, hp, hok]
    exact ⟨rfl, rfl⟩
  · exact fun hn =>
      ((fy_walk_perform_internal_master ops ok).1 comps root st).2.1 hn

/-- Claim C8, witness: a duplicate add is a no-op with success; a fresh add
appends at the tail. -/
theorem C8_witness :
    fy_walk_result_add (fun _ => true)
      { results := [fy_node.scalar 5], allocCnt := 0 } (fy_node.scalar 5) =
      ({ results := [fy_node.scalar 5], allocCnt := 0 }, 0) ∧
    (fy_walk_result_add (fun _ => true)
      { results := [fy_node.scalar 5], allocCnt := 0 }
      (fy_node.scalar 9)).1.results =
      [fy_node.scalar 5] ++ [fy_node.scalar 9] :=
  ⟨(C8_result_identity_dedup (fun _ => true)
      { results := [fy_node.scalar 5], allocCnt := 0 } (fy_node.scalar 5)
      egOps [] (fy_node.scalar 0)).1 rfl,
   ((C8_result_identity_dedup (fun _ => true)
      { results := [fy_node.scalar 5], allocCnt := 0 } (fy_node.scalar 9)
      egOps [] (fy_node.scalar 0)).2.1 rfl rfl).1⟩

theorem seq_get_by_index_nat (i0 : Nat) (items : List fy_node) (a : Nat) :
    fy_node_sequence_get_by_index (fy_node.sequence i0 items) (Int.ofNat a) =
      if h : a < items.length then some items[a] else none := by
  have h0 : ¬(Int.ofNat a < 0) := by
    simp only [Int.ofNat_eq_natCast]
    omega
  simp only [fy_node_sequence_get_by_index, fy_node_sequence_items, if_neg h0]
  by_cases h : a < items.length
  · rw [dif_pos h,
      if_pos ⟨by simp only [Int.ofNat_eq_natCast]; omega,
        by simp only [Int.ofNat_eq_natCast]; omega⟩]
    simp [Int.toNat_ofNat, List.get?_eq_getElem?, List.getElem?_eq_getElem h]
  · rw [dif_neg h, if_neg (by simp only [Int.ofNat_eq_natCast]; omega)]

theorem filterMap_get_range' (i0 : Nat) (items : List fy_node) :
    ∀ (n a : Nat), (List.range' a n).filterMap
        (fun i => fy_node_sequence_get_by_index
          (fy_node.sequence i0 items) (Int.ofNat i)) =
      (items.drop a).take n := by
  intro n
  induction n with
  | zero => intro a; simp
  | succ m ih =>
    intro a
    rw [List.range'_succ, List.filterMap_cons]
    by_cases ha : a < items.length
    · rw [seq_get_by_index_nat, dif_pos ha, ih (a + 1),
        List.drop_eq_getElem_cons ha]
      rfl
    · rw [seq_get_by_index_nat, dif_neg ha, ih (a + 1)]
      have h1 : items.drop a = [] := List.drop_eq_nil_of_le (by omega)
      have h2 : items.drop (a + 1) = [] := List.drop_eq_nil_of_le (by omega)
      rw [h1, h2]
      simp

theorem walkNodeList_nil_allok (ops : fy_doc_ops) (ok : Nat → Bool)
    (hok : ∀ k, ok k = true) :
    ∀ (ns : List fy_node) (st : fy_walk_state),
      nodupIds (st.results ++ ns) →
      (walkNodeList ops ok [] ns st).1.results = st.results ++ ns ∧
      (walkNodeList ops ok [] ns st).2 = 0 := by
  intro ns
  induction ns with
  | nil =>
    intro st h
    rw [walkNodeList.eq_1]
    exact ⟨by simp, rfl⟩
  | cons n rest ih =>
    intro st hnodup
    have hstep : fy_walk_perform_internal ops ok [] n st =
        fy_walk_result_add ok st n := fy_walk_perform_internal.eq_1 ops ok n st
    have hany : st.results.any (fy_node_same n) = false := by
      by_contra hc
      have hc2 : st.results.any (fy_node_same n) = true := by
        cases hb : st.results.any (fy_node_same n)
        · exact absurd hb hc
        · rfl
      obtain ⟨x, hx, hsame⟩ := List.any_eq_true.mp hc2
      have hid : n.nodeId = x.nodeId := by
        simpa [fy_node_same] using hsame
      have hmap : (st.results.map fy_node.nodeId).Disjoint
          ((n :: rest).map fy_node.nodeId) := by
        have := hnodup
        rw [nodupIds, List.map_append] at this
        exact (List.nodup_append.mp this).2.2
      exact hmap (List.mem_map.mpr ⟨x, hx, hid.symm⟩)
        (by simp)
    have hadd : fy_walk_result_add ok st n =
        ({ results := st.results ++ [n], allocCnt := st.allocCnt + 1 }, 0) := by
      simp only [fy_walk_result_add, hany, hok st.allocCnt]
      simp
    rw [walkNodeList.eq_2, hstep, hadd]
    rw [if_pos rfl]
    dsimp only
    have hnodup2 : nodupIds ((st.results ++ [n]) ++ rest) := by
      rw [List.append_assoc]
      exact hnodup
    have hres := ih ⟨st.results ++ [n], st.allocCnt + 1⟩ hnodup2
    refine ⟨?_, hres.2⟩
    rw [hres.1]
    simp

/-- Claim C7: evaluating a seq_slice component on a non-sequence node
yields no results and succeeds; on a sequence of length L (with a slice
satisfying the parse-time invariants start ≥ 0 and end ≥ 0 or open,
duplicate-free node identities, and an always-succeeding allocator) it
appends exactly the elements at indices start..min(end, L) — all elements
from start onwards when the end is open — and yields nothing whenever
start ≥ end after substituting L for an open end. -/
theorem C7_slice_eval_bounds (ops : fy_doc_ops) (ok : Nat → Bool)
    (txt : String) (s e : Int) (ch : List fy_walk_component)
    (st : fy_walk_state) (fyn : fy_node) (hok : ∀ k, ok k = true) :
    (fy_node_is_sequence fyn = false →
      fy_walk_perform_internal ops ok
        [fy_walk_component.mk fwct_seq_slice txt s e ch] fyn st = (st, 0)) ∧
    (∀ i0 items, fyn = fy_node.sequence i0 items →
      0 ≤ s → (e = -1 ∨ 0 ≤ e) → nodupIds (st.results ++ items) →
      ((s ≥ (if e = -1 then (items.length : Int) else e) →
         fy_walk_perform_internal ops ok
           [fy_walk_component.mk fwct_seq_slice txt s e ch] fyn st =
           (st, 0)) ∧
       (s < (if e = -1 then (items.length : Int) else e) →
         (fy_walk_perform_internal ops ok
           [fy_walk_component.mk fwct_seq_slice txt s e ch] fyn st).1.results =
           st.results ++ (items.drop s.toNat).take
             ((if e = -1 then (items.length : Int) else e).toNat - s.toNat) ∧
         ((fy_walk_perform_internal ops ok
           [fy_walk_component.mk fwct_seq_slice txt s e ch]
             fyn st).1.results).length =
           st.results.length +
             (min ((if e = -1 then (items.length : Int) else e).toNat)
               items.length - s.toNat) ∧
         (fy_walk_perform_internal ops ok
           [fy_walk_component.mk fwct_seq_slice txt s e ch] fyn st).2 = 0))) := by
  constructor
  · intro hns
    rw [fy_walk_perform_internal.eq_2]
    simp only [fy_walk_component.type, fy_walk_component.idx0,
      fy_walk_component.idx1]
    rw [if_neg (by decide)]
    rw [if_pos (by simp [hns])]
  · intro i0 items heq hs he hnodup
    subst heq
    have heval : fy_walk_perform_internal ops ok
        [fy_walk_component.mk fwct_seq_slice txt s e ch]
        (fy_node.sequence i0 items) st =
      (if s < 0 ∨ (if e = -1 then (items.length : Int) else e) < 0 ∨
          s ≥ (if e = -1 then (items.length : Int) else e) then (st, 0)
       else if s ≥ (items.length : Int) then (st, 0)
       else walkNodeList ops ok []
         ((List.range' s.toNat
            ((if e = -1 then (items.length : Int) else e).toNat - s.toNat)).filterMap
           (fun i => fy_node_sequence_get_by_index
             (fy_node.sequence i0 items) (Int.ofNat i))) st) := by
      rw [fy_walk_perform_internal.eq_2]
      simp only [fy_walk_component.type, fy_walk_component.idx0,
        fy_walk_component.idx1, fy_node_is_sequence,
        fy_node_sequence_item_count, fy_node_sequence_items]
      rw [if_neg (by decide)]
      rw [if_neg (by decide)]
    rw [heval]
    rw [filterMap_get_range' i0 items]
    by_cases hopen : e = -1
    · simp only [if_pos hopen]
      constructor
      · intro hge
        rw [if_pos (by omega)]
      · intro hlt
        rw [if_neg (by omega), if_neg (by omega)]
        have hnd2 : nodupIds (st.results ++
            (items.drop s.toNat).take (((items.length : Int)).toNat - s.toNat)) := by
          have hsub : List.Sublist ((items.drop s.toNat).take
              (((items.length : Int)).toNat - s.toNat)) items :=
            (List.take_sublist _ _).trans (List.drop_sublist _ _)
          have hsub2 : List.Sublist
              ((st.results ++ (items.drop s.toNat).take
                (((items.length : Int)).toNat - s.toNat)).map fy_node.nodeId)
              ((st.results ++ items).map fy_node.nodeId) :=
            (hsub.append_left st.results).map fy_node.nodeId
          exact List.Nodup.sublist hsub2 hnodup
        have hres := walkNodeList_nil_allok ops ok hok _ st hnd2
        refine ⟨hres.1, ?_, hres.2⟩
        rw [hres.1]
        rw [List.length_append, List.length_take, List.length_drop]
        have hL : ((items.length : Int)).toNat = items.length := by omega
        rw [hL]
        omega
    · have hge0 : 0 ≤ e := by
        rcases he with h1 | h2
        · exact absurd h1 hopen
        · exact h2
      simp only [if_neg hopen]
      constructor
      · intro hge
        rw [if_pos (by omega)]
      · intro hlt
        rw [if_neg (by omega)]
        by_cases hsl : s ≥ (items.length : Int)
        · rw [if_pos hsl]
          have hdrop : items.drop s.toNat = [] :=
            List.drop_eq_nil_of_le (by omega)
          rw [hdrop]
          refine ⟨by simp, ?_, rfl⟩
          simp only [List.take_nil, List.length_append, List.length_nil]
          omega
        · rw [if_neg hsl]
          have hnd2 : nodupIds (st.results ++
              (items.drop s.toNat).take (e.toNat - s.toNat)) := by
            have hsub : List.Sublist
                ((items.drop s.toNat).take (e.toNat - s.toNat)) items :=
              (List.take_sublist _ _).trans (List.drop_sublist _ _)
            have hsub2 : List.Sublist
                ((st.results ++ (items.drop s.toNat).take
                  (e.toNat - s.toNat)).map fy_node.nodeId)
                ((st.results ++ items).map fy_node.nodeId) :=
              (hsub.append_left st.results).map fy_node.nodeId
            exact List.Nodup.sublist hsub2 hnodup
          have hres := walkNodeList_nil_allok ops ok hok _ st hnd2
          refine ⟨hres.1, ?_, hres.2⟩
          rw [hres.1]
          rw [List.length_append, List.length_take, List.length_drop]
          omega

/-- Claim C7, witness: the slice 1:5 on a three-element sequence yields the
elements at indices 1 and 2. -/
theorem C7_witness :
    (fy_walk_perform_internal egOps (fun _ => true)
      [fy_walk_component.mk fwct_seq_slice (String.mk []) 1 5 []]
      (fy_node.sequence 7
        [fy_node.scalar 1, fy_node.scalar 2, fy_node.scalar 3])
      { results := [], allocCnt := 0 }).1.results =
      [fy_node.scalar 2, fy_node.scalar 3] ∧
    (fy_walk_perform_internal egOps (fun _ => true)
      [fy_walk_component.mk fwct_seq_slice (String.mk []) 1 5 []]
      (fy_node.sequence 7
        [fy_node.scalar 1, fy_node.scalar 2, fy_node.scalar 3])
      { results := [], allocCnt := 0 }).2 = 0 :=
  ⟨(((C7_slice_eval_bounds egOps (fun _ => true) (String.mk []) 1 5 []
        { results := [], allocCnt := 0 }
        (fy_node.sequence 7
          [fy_node.scalar 1, fy_node.scalar 2, fy_node.scalar 3])
        (fun _ => rfl)).2
      7 [fy_node.scalar 1, fy_node.scalar 2, fy_node.scalar 3] rfl
      (by decide) (Or.inr (by decide)) (by simp only [nodupIds]; decide)).2 (by decide)).1,
   (((C7_slice_eval_bounds egOps (fun _ => true) (String.mk []) 1 5 []
        { results := [], allocCnt := 0 }
        (fy_node.sequence 7
          [fy_node.scalar 1, fy_node.scalar 2, fy_node.scalar 3])
        (fun _ => rfl)).2
      7 [fy_node.scalar 1, fy_node.scalar 2, fy_node.scalar 3] rfl
      (by decide) (Or.inr (by decide)) (by simp only [nodupIds]; decide)).2 (by decide)).2.2⟩

/-- No element of the list has the given expression type (used to state the
chain/multi flattening invariants). -/
def noType (t0 : fy_path_expr_type) : List fy_path_expr → Bool
  | [] => true
  | c :: cs => (c.type ≠ t0) && noType t0 cs

mutual

/-- The flattening invariant on parsed path expressions: a chain has a
non-empty children list none of which is a chain, a multi has a non-empty
children list none of which is a multi, recursively. -/
def flatOK : fy_path_expr → Bool
  | .mk t _ ch =>
    ((t ≠ fpet_chain) || (!ch.isEmpty && noType fpet_chain ch)) &&
    (((t ≠ fpet_multi) || (!ch.isEmpty && noType fpet_multi ch)) &&
     flatOKList ch)

/-- The flattening invariant on every member of a list. -/
def flatOKList : List fy_path_expr → Bool
  | [] => true
  | c :: cs => flatOK c && flatOKList cs

end

/-- The auxiliary token invariant of the operand stack: a chain or multi
node never carries a map-key token (parser-internal; map-key tokens only
sit on operand leaves, so a sibling combination can recognise its operand). -/
def tokOK : fy_path_expr → Bool
  | .mk t f _ =>
    if t = fpet_chain ∨ t = fpet_multi then
      match f with
      | none => true
      | some ft => ft.type ≠ FYTT_PE_MAP_KEY
    else true

theorem noType_append (t0 : fy_path_expr_type) (a b : List fy_path_expr) :
    noType t0 (a ++ b) = (noType t0 a && noType t0 b) := by
  induction a with
  | nil => simp [noType]
  | cons c cs ih => simp [noType, ih, Bool.and_assoc]

theorem flatOKList_append (a b : List fy_path_expr) :
    flatOKList (a ++ b) = (flatOKList a && flatOKList b) := by
  induction a with
  | nil => simp [flatOKList]
  | cons c cs ih => simp [flatOKList, ih, Bool.and_assoc]

theorem flatOK_mk (t : fy_path_expr_type) (f : Option fy_token)
    (ch : List fy_path_expr) :
    flatOK (fy_path_expr.mk t f ch) = true ↔
      ((t = fpet_chain → ch ≠ [] ∧ noType fpet_chain ch = true) ∧
       (t = fpet_multi → ch ≠ [] ∧ noType fpet_multi ch = true) ∧
       flatOKList ch = true) := by
  simp [flatOK]
  constructor
  · rintro ⟨h1, h2, h3⟩
    refine ⟨?_, ?_, h3⟩
    · intro ht
      rcases h1 with h | h
      · exact absurd ht h
      · exact ⟨h.1, h.2⟩
    · intro ht
      rcases h2 with h | h
      · exact absurd ht h
      · exact ⟨h.1, h.2⟩
  · rintro ⟨h1, h2, h3⟩
    refine ⟨?_, ?_, h3⟩
    · by_cases ht : t = fpet_chain
      · exact Or.inr (h1 ht)
      · exact Or.inl ht
    · by_cases ht : t = fpet_multi
      · exact Or.inr (h2 ht)
      · exact Or.inl ht

theorem leaf_token_OK (tt : fy_token_type) (fyt : fy_token) :
    flatOK (fy_path_expr.mk (fy_map_token_to_path_expr_type tt)
      (some fyt) []) = true ∧
    tokOK (fy_path_expr.mk (fy_map_token_to_path_expr_type tt)
      (some fyt) []) = true := by
  cases tt <;> exact ⟨rfl, rfl⟩

theorem leaf_plain_OK (t : fy_path_expr_type) (f : Option fy_token)
    (h1 : t ≠ fpet_chain) (h2 : t ≠ fpet_multi) :
    flatOK (fy_path_expr.mk t f []) = true ∧
    tokOK (fy_path_expr.mk t f []) = true := by
  constructor
  · simp [flatOK, flatOKList, h1, h2]
  · simp [tokOK, h1, h2]

theorem slashCombine_OK (l r : fy_path_expr)
    (hl1 : flatOK l = true) (hl2 : tokOK l = true)
    (hr1 : flatOK r = true) (hr2 : tokOK r = true) :
    flatOK (slashCombine l r) = true ∧ tokOK (slashCombine l r) = true := by
  cases l with
  | mk lt lf lch =>
  cases r with
  | mk rt rf rch =>
  have hl1' := (flatOK_mk lt lf lch).mp hl1
  have hr1' := (flatOK_mk rt rf rch).mp hr1
  simp only [slashCombine, fy_path_expr.type, fy_path_expr.children,
    fy_path_expr.fyt]
  split_ifs with h1 h2 h3
  · -- rt ≠ chain, lt ≠ chain
    simp only [fy_path_expr.children, fy_path_expr.fyt]
    constructor
    · rw [flatOK_mk]
      refine ⟨fun _ => ⟨by simp, ?_⟩, fun hcm => absurd hcm (by decide), ?_⟩
      · simp [noType, fy_path_expr.type, h1, h2]
      · simp [flatOKList, hl1, hr1]
    · rfl
  · -- rt ≠ chain, lt = chain
    have hlc : lt = fpet_chain := not_not.mp h2
    obtain ⟨hlne, hlno⟩ := hl1'.1 hlc
    simp only [fy_path_expr.children, fy_path_expr.fyt]
    constructor
    · rw [flatOK_mk]
      refine ⟨fun _ => ⟨by simp [hlne], ?_⟩,
        fun hcm => absurd hcm (by decide), ?_⟩
      · simp [noType_append, hlno, noType, fy_path_expr.type, h1]
      · simp [flatOKList_append, hl1'.2.2, flatOKList, hr1]
    · subst hlc
      simp only [tokOK] at hl2 ⊢
      simpa using hl2
  · -- rt = chain, lt ≠ chain
    have hrc : rt = fpet_chain := not_not.mp h1
    obtain ⟨hrne, hrno⟩ := hr1'.1 hrc
    simp only [fy_path_expr.children, fy_path_expr.fyt]
    constructor
    · rw [flatOK_mk]
      refine ⟨fun _ => ⟨by simp, ?_⟩, fun hcm => absurd hcm (by decide), ?_⟩
      · simp [noType, fy_path_expr.type, h3, noType_append, hrno]
      · simp [flatOKList, flatOKList_append, hl1, hr1'.2.2]
    · rfl
  · -- rt = chain, lt = chain
    have hrc : rt = fpet_chain := not_not.mp h1
    have hlc : lt = fpet_chain := not_not.mp h3
    obtain ⟨hlne, hlno⟩ := hl1'.1 hlc
    obtain ⟨hrne, hrno⟩ := hr1'.1 hrc
    simp only [fy_path_expr.children, fy_path_expr.fyt]
    constructor
    · rw [flatOK_mk]
      refine ⟨fun _ => ⟨by simp [hlne], ?_⟩,
        fun hcm => absurd hcm (by decide), ?_⟩
      · simp [noType_append, hlno, hrno]
      · simp [flatOKList_append, hl1'.2.2, hr1'.2.2]
    · subst hlc
      simp only [tokOK] at hl2 ⊢
      simpa using hl2

theorem evaluateStep_inv (fyt_top : fy_token) (ops ops2 : List fy_path_expr)
    (h : evaluateStep fyt_top ops = some ops2)
    (hs : ∀ x ∈ ops, flatOK x = true ∧ tokOK x = true) :
    ∀ x ∈ ops2, flatOK x = true ∧ tokOK x = true := by
  cases hty : fyt_top.type <;> simp only [evaluateStep, hty] at h
  all_goals try exact Option.noConfusion h
  case FYTT_PE_SLASH =>
    split at h
    · injection h with h2
      subst h2
      intro x hx
      have hxe := List.mem_singleton.mp hx
      subst hxe
      exact leaf_plain_OK fpet_root _ (by decide) (by decide)
    · rename_i exprr
      split at h
      · exact Option.noConfusion h
      · rename_i m hm
        split at h
        · injection h with h2
          subst h2
          intro x hx
          have hxe := List.mem_singleton.mp hx
          subst hxe
          have hrr := hs exprr (by simp)
          exact slashCombine_OK _ _
            (leaf_plain_OK fpet_root _ (by decide) (by decide)).1
            (leaf_plain_OK fpet_root _ (by decide) (by decide)).2
            hrr.1 hrr.2
        · injection h with h2
          subst h2
          intro x hx
          have hxe := List.mem_singleton.mp hx
          subst hxe
          have hrr := hs exprr (by simp)
          exact slashCombine_OK _ _ hrr.1 hrr.2
            (leaf_plain_OK fpet_assert_collection _ (by decide) (by decide)).1
            (leaf_plain_OK fpet_assert_collection _ (by decide) (by decide)).2
    · rename_i exprr exprl rest
      injection h with h2
      subst h2
      intro x hx
      rcases List.mem_cons.mp hx with hx1 | hx2
      · subst hx1
        have hl := hs exprl (by simp)
        have hr := hs exprr (by simp)
        exact slashCombine_OK _ _ hl.1 hl.2 hr.1 hr.2
      · exact hs x (by simp [hx2])
  case FYTT_PE_SIBLING =>
    split at h
    · exact Option.noConfusion h
    · rename_i exprr rest
      split at h
      · exact Option.noConfusion h
      · rename_i ft hft
        split at h
        · rename_i hmk
          injection h with h2
          subst h2
          intro x hx
          rcases List.mem_cons.mp hx with hx1 | hx2
          · subst hx1
            have hrr := hs exprr (by simp)
            cases exprr with | mk et ef ech =>
            simp only [fy_path_expr.fyt] at hft
            subst hft
            have hrnc : et ≠ fpet_chain := by
              intro hc
              subst hc
              have hrtok := hrr.2
              simp only [tokOK] at hrtok
              simp at hrtok
              exact hrtok hmk
            constructor
            · rw [flatOK_mk]
              refine ⟨fun _ => ⟨by simp, ?_⟩,
                fun hcm => absurd hcm (by decide), ?_⟩
              · simp [noType, fy_path_expr.type, hrnc]
              · simp [flatOKList,
                  (leaf_plain_OK fpet_parent none (by decide) (by decide)).1,
                  hrr.1]
            · simp [tokOK, hty]
          · exact hs x (by simp [hx2])
        · exact Option.noConfusion h
  case FYTT_PE_COMMA =>
    split at h
    · rename_i exprr exprl rest
      split at h
      · rename_i hrm
        injection h with h2
        subst h2
        intro x hx
        rcases List.mem_cons.mp hx with hx1 | hx2
        · subst hx1
          have hl := hs exprl (by simp)
          have hr := hs exprr (by simp)
          cases exprl with | mk lt lf lch =>
          cases exprr with | mk rt rf rch =>
          simp only [fy_path_expr.type] at hrm
          have hl1' := (flatOK_mk lt lf lch).mp hl.1
          simp only [fy_path_expr.type]
          by_cases hlm : lt ≠ fpet_multi
          · rw [if_pos hlm]
            simp only [fy_path_expr.children, fy_path_expr.fyt]
            constructor
            · rw [flatOK_mk]
              refine ⟨fun hcm => absurd hcm (by decide),
                fun _ => ⟨by simp, ?_⟩, ?_⟩
              · simp [noType, fy_path_expr.type, hlm, hrm]
              · simp [flatOKList, hl.1, hr.1]
            · simp [tokOK, hty]
          · rw [if_neg hlm]
            have hlm' : lt = fpet_multi := not_not.mp hlm
            subst hlm'
            obtain ⟨hlne, hlno⟩ := hl1'.2.1 rfl
            simp only [fy_path_expr.children, fy_path_expr.fyt]
            constructor
            · rw [flatOK_mk]
              refine ⟨fun hcm => absurd hcm (by decide),
                fun _ => ⟨by simp [hlne], ?_⟩, ?_⟩
              · simp [noType_append, hlno, noType, fy_path_expr.type, hrm]
              · simp [flatOKList_append, hl1'.2.2, flatOKList, hr.1]
            · have hltok := hl.2
              simp only [tokOK] at hltok ⊢
              simp at hltok ⊢
              exact hltok
        · exact hs x (by simp [hx2])
      · rename_i hrm
        injection h with h2
        subst h2
        intro x hx
        rcases List.mem_cons.mp hx with hx1 | hx2
        · subst hx1
          have hl := hs exprl (by simp)
          have hr := hs exprr (by simp)
          cases exprl with | mk lt lf lch =>
          cases exprr with | mk rt rf rch =>
          simp only [fy_path_expr.type] at hrm
          have hrm' : rt = fpet_multi := not_not.mp hrm
          subst hrm'
          have hl1' := (flatOK_mk lt lf lch).mp hl.1
          have hr1' := (flatOK_mk _ rf rch).mp hr.1
          obtain ⟨hrne, hrno⟩ := hr1'.2.1 rfl
          simp only [fy_path_expr.type]
          by_cases hlm : lt ≠ fpet_multi
          · rw [if_pos hlm]
            simp only [fy_path_expr.children, fy_path_expr.fyt]
            constructor
            · rw [flatOK_mk]
              refine ⟨fun hcm => absurd hcm (by decide),
                fun _ => ⟨by simp, ?_⟩, ?_⟩
              · simp [noType, fy_path_expr.type, hlm, noType_append, hrno]
              · simp [flatOKList, flatOKList_append, hl.1, hr1'.2.2]
            · simp [tokOK, hty]
          · rw [if_neg hlm]
            have hlm' : lt = fpet_multi := not_not.mp hlm
            subst hlm'
            obtain ⟨hlne, hlno⟩ := hl1'.2.1 rfl
            simp only [fy_path_expr.children, fy_path_expr.fyt]
            constructor
            · rw [flatOK_mk]
              refine ⟨fun hcm => absurd hcm (by decide),
                fun _ => ⟨by simp [hlne], ?_⟩, ?_⟩
              · simp [noType_append, hlno, hrno]
              · simp [flatOKList_append, hl1'.2.2, hr1'.2.2]
            · have hltok := hl.2
              simp only [tokOK] at hltok ⊢
              simp at hltok ⊢
              exact hltok
        · exact hs x (by simp [hx2])
    · exact Option.noConfusion h
  all_goals
    split at h
    · exact Option.noConfusion h
    · rename_i exprl rest
      injection h with h2
      subst h2
      intro x hx
      rcases List.mem_cons.mp hx with hx1 | hx2
      · subst hx1
        have hl := hs exprl (by simp)
        have hleaf := leaf_token_OK fyt_top.type fyt_top
        rw [hty] at hleaf
        cases exprl with | mk lt lf lch =>
        have hl1' := (flatOK_mk lt lf lch).mp hl.1
        simp only [fy_path_expr.type]
        by_cases hlc : lt ≠ fpet_chain
        · rw [if_pos hlc]
          simp only [fy_path_expr.children, fy_path_expr.fyt]
          constructor
          · rw [flatOK_mk]
            refine ⟨fun _ => ⟨by simp, ?_⟩,
              fun hcm => absurd hcm (by decide), ?_⟩
            · simp [noType, fy_path_expr.type,
                fy_map_token_to_path_expr_type, hty]
            · simp [flatOKList,
                hleaf.1]
          · simp [tokOK]
        · rw [if_neg hlc]
          have hlc' : lt = fpet_chain := not_not.mp hlc
          subst hlc'
          obtain ⟨hlne, hlno⟩ := hl1'.1 rfl
          simp only [fy_path_expr.children, fy_path_expr.fyt]
          constructor
          · rw [flatOK_mk]
            refine ⟨fun _ => ⟨by simp [hlne], ?_⟩,
              fun hcm => absurd hcm (by decide), ?_⟩
            · simp [noType_append, hlno, noType, fy_path_expr.type,
                fy_map_token_to_path_expr_type, hty]
            · simp [flatOKList_append, hl1'.2.2, flatOKList,
                hleaf.1]
          · have hltok := hl.2
            simp only [tokOK] at hltok ⊢
            simp at hltok ⊢
            exact hltok
      · exact hs x (by simp [hx2])

theorem shuntOperator_inv (fyt : fy_token) :
    ∀ (stack : List fy_token) (ops : List fy_path_expr)
      (stack2 : List fy_token) (ops2 : List fy_path_expr),
      shuntOperator fyt stack ops = some (stack2, ops2) →
      (∀ x ∈ ops, flatOK x = true ∧ tokOK x = true) →
      ∀ x ∈ ops2, flatOK x = true ∧ tokOK x = true := by
  intro stack
  induction stack with
  | nil =>
    intro ops s2 o2 h hs
    simp only [shuntOperator] at h
    injection h with h2
    injection h2 with h3 h4
    subst h4
    exact hs
  | cons top rest ih =>
    intro ops s2 o2 h hs
    simp only [shuntOperator] at h
    split at h
    · injection h with h2
      injection h2 with h3 h4
      subst h4
      exact hs
    · split at h
      · exact Option.noConfusion h
      · rename_i ops' heq
        exact ih _ _ _ h (evaluateStep_inv _ _ _ heq hs)

theorem drainOperators_inv :
    ∀ (stack : List fy_token) (ops ops2 : List fy_path_expr),
      drainOperators stack ops = some ops2 →
      (∀ x ∈ ops, flatOK x = true ∧ tokOK x = true) →
      ∀ x ∈ ops2, flatOK x = true ∧ tokOK x = true := by
  intro stack
  induction stack with
  | nil =>
    intro ops o2 h hs
    simp only [drainOperators] at h
    injection h with h2
    subst h2
    exact hs
  | cons top rest ih =>
    intro ops o2 h hs
    simp only [drainOperators] at h
    split at h
    · exact Option.noConfusion h
    · rename_i ops' heq
      exact ih _ _ h (evaluateStep_inv _ _ _ heq hs)

theorem fy_path_parse_loop_inv :
    ∀ (ts operators : List fy_token) (ops : List fy_path_expr)
      (e : fy_path_expr),
      fy_path_parse_loop ts operators ops = some e →
      (∀ x ∈ ops, flatOK x = true ∧ tokOK x = true) →
      flatOK e = true ∧ tokOK e = true := by
  intro ts
  induction ts with
  | nil =>
    intro operators ops e h hs
    simp only [fy_path_parse_loop] at h
    split at h
    · exact Option.noConfusion h
    · rename_i ops' heq
      split at h
      · rename_i expr
        injection h with h2
        subst h2
        exact drainOperators_inv _ _ _ heq hs _ (by simp)
      · exact Option.noConfusion h
  | cons t ts2 ih =>
    intro operators ops e h hs
    simp only [fy_path_parse_loop] at h
    split at h
    · refine ih _ _ _ h ?_
      intro x hx
      rcases List.mem_cons.mp hx with hx1 | hx2
      · subst hx1
        exact leaf_token_OK t.type t
      · exact hs x hx2
    · split at h
      · exact Option.noConfusion h
      · rename_i pr heq
        exact ih _ _ _ h (shuntOperator_inv _ _ _ _ _ heq hs)

/-- Claim C9: every AST a successful parse returns satisfies the
flattening invariants — every chain node has a non-empty children list
none of which is itself a chain, every multi node has a non-empty children
list none of which is itself a multi, recursively throughout the tree
(`flatOK`) — because every expression ever pushed on the operand stack
already satisfies them. -/
theorem C9_parse_flattened (ts : List fy_token) (e : fy_path_expr)
    (h : fy_path_parse_expression ts = some e) :
    flatOK e = true :=
  (fy_path_parse_loop_inv ts [] [] e h (fun x hx => by simp at hx)).1

/-- Claim C9, witness: the parse of a single root token. -/
theorem C9_witness :
    fy_path_parse_expression [{ type := FYTT_PE_ROOT, pos := 0 }] =
      some (fy_path_expr.mk fpet_root
        (some { type := FYTT_PE_ROOT, pos := 0 }) []) ∧
    flatOK (fy_path_expr.mk fpet_root
      (some { type := FYTT_PE_ROOT, pos := 0 }) []) = true :=
  ⟨rfl, C9_parse_flattened [{ type := FYTT_PE_ROOT, pos := 0 }] _ rfl⟩
